import Mathlib

/-
Verification of the execution-plan engine (AST lowering, node registry,
graph-editing primitives, variable-usage analysis and plan (de)serialization)
against its specification.  The definitions below are a shallow embedding of
the functions of arangod/Aql/ExecutionPlan.cpp; the node-level primitives of
ExecutionNode (addDependency, removeDependency, replaceDependency, the walker)
are not part of the given sources and are modelled from the spec where needed.
TRI_ASSERT statements of the source are debug-only no-ops; they appear as
hypotheses of the theorems instead of run-time checks.
-/

namespace ArangoPlan

/-- Error kinds surfaced by the plan engine, following the spec's error
taxonomy (section 7).  The source raises them as internal exceptions with
messages; the constructors here name the corresponding spec error kinds. -/
inductive PErr where
  | rootRemovalForbidden
  | rewireFailed
  | unknownNode (id : Nat)
  | duplicateId
  | unknownCollection
  | malformedPlan (msg : String)
  | fuelExhausted
  deriving DecidableEq, Repr

/-- First-match lookup in an association list, modelling lookup in the
std::unordered_map and the triagens Json attribute lookup. -/
def alookup {κ α : Type} [DecidableEq κ] : List (κ × α) → κ → Option α
  | [], _ => none
  | p :: rest, i => if p.1 = i then some p.2 else alookup rest i

/-- Modification options attached to write nodes (ExecutionPlan::createOptions).
keepNull is stored inverted as nullMeansRemove, as in the source. -/
structure ModificationOptions where
  waitForSync : Bool := false
  ignoreErrors : Bool := false
  nullMeansRemove : Bool := false
  deriving DecidableEq, Repr

/-- ExecutionPlan::createOptions: walks the option array members, recognizing
waitForSync, ignoreErrors, and keepNull (stored inverted); unrecognized keys
are ignored.  An option member is modelled as its (name, boolean value) pair. -/
def createOptions (opts : List (String × Bool)) : ModificationOptions :=
  opts.foldl
    (fun acc kv =>
      if kv.1 = "waitForSync" then { acc with waitForSync := kv.2 }
      else if kv.1 = "ignoreErrors" then { acc with ignoreErrors := kv.2 }
      else if kv.1 = "keepNull" then { acc with nullMeansRemove := ! kv.2 }
      else acc)
    {}

/-- Result of ExecutionPlan::registerNode: the registry contents afterwards,
the returned node, whether an error was raised, and whether the node being
registered was destroyed.  Nodes are modelled as opaque Nat tokens keyed by
their id. -/
structure RegisterResult where
  registry : List (Nat × Nat)
  returned : Nat
  error : Option PErr
  nodeDestroyed : Bool
  deriving DecidableEq, Repr

/-- ExecutionPlan::registerNode: `_ids.emplace(node->id(), node)`.  emplace on
an unordered_map does not throw when the key already exists: it simply leaves
the map unchanged, so the duplicate case raises no error and does not destroy
the node.  The catch-delete-throw path of the source only fires on an
allocation failure inside emplace, which a pure model has no counterpart for. -/
def registerNode (reg : List (Nat × Nat)) (nid tok : Nat) : RegisterResult :=
  if (alookup reg nid).isSome then
    { registry := reg, returned := tok, error := none, nodeDestroyed := false }
  else
    { registry := reg ++ [(nid, tok)], returned := tok, error := none,
      nodeDestroyed := false }

/-- An AST operand as the lowering functions case on it: either a bare
variable reference (NODE_TYPE_REFERENCE, carrying its Variable) or some
miscellaneous expression that needs an implicit calculation. -/
inductive AqlExpr where
  | ref (v : Nat)
  | misc (tag : Nat)
  deriving DecidableEq, Repr

/-- The data carried by a produced write node (RemoveNode / InsertNode /
UpdateNode / ReplaceNode): the resolved collection (none models the nullptr
handed to the node constructor when the name is not registered), the parsed
modification options, the input (document) variable and the optional key
variable. -/
structure WriteNode where
  collection : Option Nat
  options : ModificationOptions
  inVariable : Nat
  keyVariable : Option Nat
  deriving DecidableEq, Repr

/-- ExecutionPlan::fromNodeRemove.  `tmp` is the next fresh temporary-variable
id handed out by the Ast's variable table (createTemporaryVariable).  The
returned list holds the output variables of the implicit calculation nodes
chained before the write node, in chain order. -/
def fromNodeRemove (cols : List (String × Nat)) (opts : List (String × Bool))
    (collectionName : String) (expr : AqlExpr) (tmp : Nat) :
    Except PErr (List Nat × WriteNode) := do
  let options := createOptions opts
  let collection := alookup cols collectionName
  if collection.isNone then
    throw PErr.unknownCollection
  match expr with
  | .ref v => pure ([], ⟨collection, options, v, none⟩)
  | .misc _ => pure ([tmp], ⟨collection, options, tmp, none⟩)

/-- ExecutionPlan::fromNodeInsert.  Unlike fromNodeRemove, the source performs
no nullptr check after the collection lookup: the node is built with whatever
the lookup returned. -/
def fromNodeInsert (cols : List (String × Nat)) (opts : List (String × Bool))
    (collectionName : String) (expr : AqlExpr) (tmp : Nat) :
    Except PErr (List Nat × WriteNode) := do
  let options := createOptions opts
  let collection := alookup cols collectionName
  match expr with
  | .ref v => pure ([], ⟨collection, options, v, none⟩)
  | .misc _ => pure ([tmp], ⟨collection, options, tmp, none⟩)

/-- ExecutionPlan::fromNodeUpdate: optional key expression resolved first
(bare variable or implicit calculation), then the document expression; no
nullptr check after the collection lookup. -/
def fromNodeUpdate (cols : List (String × Nat)) (opts : List (String × Bool))
    (collectionName : String) (docExpr : AqlExpr) (keyExpr : Option AqlExpr)
    (tmp : Nat) : Except PErr (List Nat × WriteNode) := do
  let options := createOptions opts
  let collection := alookup cols collectionName
  let (chain0, keyVariable, tmp1) :=
    match keyExpr with
    | none => (([] : List Nat), (none : Option Nat), tmp)
    | some (.ref v) => ([], some v, tmp)
    | some (.misc _) => ([tmp], some tmp, tmp + 1)
  match docExpr with
  | .ref v => pure (chain0, ⟨collection, options, v, keyVariable⟩)
  | .misc _ => pure (chain0 ++ [tmp1], ⟨collection, options, tmp1, keyVariable⟩)

/-- ExecutionPlan::fromNodeReplace: same structure as fromNodeUpdate, and
likewise no nullptr check after the collection lookup. -/
def fromNodeReplace (cols : List (String × Nat)) (opts : List (String × Bool))
    (collectionName : String) (docExpr : AqlExpr) (keyExpr : Option AqlExpr)
    (tmp : Nat) : Except PErr (List Nat × WriteNode) := do
  let options := createOptions opts
  let collection := alookup cols collectionName
  let (chain0, keyVariable, tmp1) :=
    match keyExpr with
    | none => (([] : List Nat), (none : Option Nat), tmp)
    | some (.ref v) => ([], some v, tmp)
    | some (.misc _) => ([tmp], some tmp, tmp + 1)
  match docExpr with
  | .ref v => pure (chain0, ⟨collection, options, v, keyVariable⟩)
  | .misc _ => pure (chain0 ++ [tmp1], ⟨collection, options, tmp1, keyVariable⟩)

/-- Nodes appended to the chain by the COLLECT lowering, in chain order:
implicit temporary calculations, the injected sort node (elements are
(variable, ascending) pairs plus the stability flag), and the aggregate
node with its (output variable, grouping source variable) pairs. -/
inductive LoweredNode where
  | calcNode (outVar : Nat)
  | sortNode (elements : List (Nat × Bool)) (stable : Bool)
  | aggregateNode (aggregateVariables : List (Nat × Nat)) (outVariable : Option Nat)
  deriving DecidableEq, Repr

/-- The loop of ExecutionPlan::fromNodeCollect over the assignment list:
returns (implicit calculation nodes in chain order, sortElements,
aggregateVariables, next fresh temporary id).  A none assigner is skipped,
as in the source.  A bare variable source is recorded directly; any other
source goes through a fresh temporary calculation. -/
def collectLoop : List (Option (Nat × AqlExpr)) → Nat →
    List LoweredNode × List (Nat × Bool) × List (Nat × Nat) × Nat
  | [], tmp => ([], [], [], tmp)
  | none :: rest, tmp => collectLoop rest tmp
  | some (v, .ref e) :: rest, tmp =>
    let r := collectLoop rest tmp
    (r.1, (e, true) :: r.2.1, (v, e) :: r.2.2.1, r.2.2.2)
  | some (v, .misc _) :: rest, tmp =>
    let r := collectLoop rest (tmp + 1)
    (LoweredNode.calcNode tmp :: r.1, (tmp, true) :: r.2.1, (v, tmp) :: r.2.2.1,
      r.2.2.2)

/-- ExecutionPlan::fromNodeCollect: after the assignment loop, a stable sort
node on the collected sortElements is injected, then the aggregate node;
the returned list is the chain segment appended by the lowering, in order. -/
def fromNodeCollect (groups : List (Option (Nat × AqlExpr)))
    (outVariable : Option Nat) (tmp : Nat) : List LoweredNode :=
  let r := collectLoop groups tmp
  r.1 ++ [LoweredNode.sortNode r.2.1 true,
          LoweredNode.aggregateNode r.2.2.1 outVariable]

/-- Whether a lowered node is a sort node. -/
def isSortLN : LoweredNode → Bool
  | .sortNode _ _ => true
  | _ => false

/-- The pointer graph between execution nodes, as two edge maps: for
each node id its ordered dependency list (`_dependencies`) and its parent
list (`_parents`). -/
structure Graph where
  deps : Nat → List Nat
  pars : Nat → List Nat

/-- Replace the dependency list of one node. -/
def setDeps (g : Graph) (n : Nat) (l : List Nat) : Graph :=
  ⟨fun m => if m = n then l else g.deps m, g.pars⟩

/-- Replace the parent list of one node. -/
def setPars (g : Graph) (n : Nat) (l : List Nat) : Graph :=
  ⟨g.deps, fun m => if m = n then l else g.pars m⟩

/-- Modelled from the spec: ExecutionNode::addDependency (not in the given
sources) appends dep to the node's dependency list and the node to dep's
parent list, keeping the two edge directions mutually consistent. -/
def addDependency (g : Graph) (n d : Nat) : Graph :=
  let g1 := setDeps g n (g.deps n ++ [d])
  setPars g1 d (g1.pars d ++ [n])

/-- Modelled from the spec: ExecutionNode::removeDependency (not in the given
sources) erases the first occurrence of dep from the node's dependency list
and of the node from dep's parent list. -/
def removeDependency (g : Graph) (n d : Nat) : Graph :=
  let g1 := setDeps g n ((g.deps n).erase d)
  setPars g1 d ((g1.pars d).erase n)

/-- Replace the first occurrence of old by new in a list, leaving the list
unchanged when old does not occur. -/
def replaceFirst : List Nat → Nat → Nat → List Nat
  | [], _, _ => []
  | x :: rest, old, new =>
    if x = old then new :: rest else x :: replaceFirst rest old new

/-- Modelled from the spec: ExecutionNode::replaceDependency (not in the given
sources) replaces old by new in the node's dependency list at its position,
moves the parent back-link from old to new, and reports whether old was
actually found among the node's dependencies. -/
def replaceDependency (g : Graph) (n old new : Nat) : Graph × Bool :=
  if old ∈ g.deps n then
    let g1 := setDeps g n (replaceFirst (g.deps n) old new)
    let g2 := setPars g1 old ((g1.pars old).erase n)
    (setPars g2 new (g2.pars new ++ [n]), true)
  else (g, false)

/-- Modelled from the spec: ExecutionNode::removeDependencies drops every
dependency of the node, including the parent back-links. -/
def removeDependencies (g : Graph) (n : Nat) : Graph :=
  (g.deps n).foldl (fun g x => removeDependency g n x) g

/-- The mutable plan state the graph-editing primitives act on: the id
registry (only its key set matters here), the edge maps, the root id and
the variable-usage flag. -/
structure EPlan where
  ids : List Nat
  graph : Graph
  root : Nat
  varUsageComputed : Bool

/-- ExecutionPlan::unlinkNode: fails on a node with no parents; otherwise
each former parent drops the node and gains all of the node's former
dependencies, then the node drops its own dependencies; finally the
variable-usage flag is cleared. -/
def unlinkNode (p : EPlan) (node : Nat) : Except PErr EPlan :=
  let parents := p.graph.pars node
  if parents = [] then
    .error PErr.rootRemovalForbidden
  else
    let dep := p.graph.deps node
    let g1 := parents.foldl
      (fun g q => (dep.foldl (fun g x => addDependency g q x)
        (removeDependency g q node))) p.graph
    let g2 := dep.foldl (fun g x => removeDependency g node x) g1
    .ok { p with graph := g2, varUsageComputed := false }

/-- ExecutionPlan::replaceNode: transfers the old node's dependencies to the
new node, then rewires every parent of the old node through
replaceDependency, raising RewireFailed when a parent's dependency list does
not contain the old node; finally clears the variable-usage flag.  The
TRI_ASSERT preconditions (distinct ids, new node without dependencies, old
node not the root) are modelled as theorem hypotheses. -/
def replaceNode (p : EPlan) (oldNode newNode : Nat) : Except PErr EPlan := do
  let deps := p.graph.deps oldNode
  let g1 := deps.foldl
    (fun g x => removeDependency (addDependency g newNode x) oldNode x) p.graph
  let oldNodeParents := g1.pars oldNode
  let g2 ← oldNodeParents.foldlM
    (fun g q =>
      let r := replaceDependency g q oldNode newNode
      if r.2 then pure r.1 else throw PErr.rewireFailed)
    g1
  pure { p with graph := g2, varUsageComputed := false }

/-- ExecutionPlan::insertDependency: makes the new node take over the old
node's single former dependency and become the old node's sole dependency,
then clears the variable-usage flag.  The source indexes oldDeps[0] under a
TRI_ASSERT that exactly one dependency exists; headD stands in for that
unchecked access. -/
def insertDependency (p : EPlan) (oldNode newNode : Nat) : Except PErr EPlan := do
  let oldDeps := p.graph.deps oldNode
  let d0 := oldDeps.headD 0
  let r := replaceDependency p.graph oldNode d0 newNode
  if ! r.2 then
    throw PErr.rewireFailed
  let g1 := removeDependencies r.1 newNode
  let g2 := addDependency g1 newNode d0
  pure { p with graph := g2, varUsageComputed := false }

/-- ExecutionPlan::findVarUsage at the plan-state level: a completed analyzer
run sets the variable-usage flag (the published id-to-definer mapping is
studied with the tree-level walker below). -/
def findVarUsagePlan (p : EPlan) : EPlan :=
  { p with varUsageComputed := true }

/-- The graph operations whose effect on the variable-usage flag the spec
describes. -/
inductive PlanOp where
  | unlink (x : Nat)
  | replace (a b : Nat)
  | insertDep (a b : Nat)
  | findUsage
  deriving DecidableEq, Repr

/-- Apply one operation to the plan state. -/
def applyOp (p : EPlan) : PlanOp → Except PErr EPlan
  | .unlink x => unlinkNode p x
  | .replace a b => replaceNode p a b
  | .insertDep a b => insertDependency p a b
  | .findUsage => .ok (findVarUsagePlan p)

/-- Run a sequence of operations, stopping at the first error. -/
def runOps (p : EPlan) (ops : List PlanOp) : Except PErr EPlan :=
  ops.foldlM applyOp p

/-- Whether an operation is a graph edit (as opposed to an analyzer run). -/
def isEdit : PlanOp → Bool
  | .findUsage => false
  | _ => true

/-- The effect of one successful operation on the variable-usage flag:
edits clear it, an analyzer run sets it. -/
def opFlag (_ : Bool) : PlanOp → Bool
  | .findUsage => true
  | _ => false

/-- The flag value after a successful run of a sequence of operations. -/
def flagFold (b : Bool) (ops : List PlanOp) : Bool :=
  ops.foldl opFlag b

/-- Structural well-formedness of the edge maps: duplicate-free edge lists
and mutually consistent dependency/parent directions. -/
def GraphWF (g : Graph) : Prop :=
  (∀ n, (g.deps n).Nodup) ∧ (∀ n, (g.pars n).Nodup) ∧
    (∀ a b, a ∈ g.deps b ↔ b ∈ g.pars a)

/-- A concrete three-node chain 1 <- 2 <- 3 (node 1 is the root, node 2
depends on 3) used to instantiate the edit theorems. -/
def chainGraph : Graph :=
  ⟨fun n => if n = 1 then [2] else if n = 2 then [3] else [],
   fun n => if n = 2 then [1] else if n = 3 then [2] else []⟩

/-- A concrete plan over chainGraph. -/
def chainPlan : EPlan := ⟨[1, 2, 3], chainGraph, 1, true⟩

/-- chainGraph extended with an isolated registered node 4, used to
instantiate the replaceNode theorem. -/
def chainPlan4 : EPlan := ⟨[1, 2, 3, 4], chainGraph, 1, true⟩

/-- The execution-node type tags the plan layer dispatches on. -/
inductive NType where
  | singleton
  | enumerateCollection
  | enumerateList
  | filter
  | calculation
  | subquery
  | sort
  | aggregate
  | limit
  | returnNode
  | remove
  | insert
  | update
  | replace
  deriving DecidableEq, Repr

/-- The type tag recorded in a node's persisted form. -/
def typeString : NType → String
  | .singleton => "SingletonNode"
  | .enumerateCollection => "EnumerateCollectionNode"
  | .enumerateList => "EnumerateListNode"
  | .filter => "FilterNode"
  | .calculation => "CalculationNode"
  | .subquery => "SubqueryNode"
  | .sort => "SortNode"
  | .aggregate => "AggregateNode"
  | .limit => "LimitNode"
  | .returnNode => "ReturnNode"
  | .remove => "RemoveNode"
  | .insert => "InsertNode"
  | .update => "UpdateNode"
  | .replace => "ReplaceNode"

/-- Dispatch from a recorded type tag back to the node type
(ExecutionNode::fromJsonFactory's dispatch, modelled from the spec). -/
def typeOfString (s : String) : Option NType :=
  if s = "SingletonNode" then some .singleton
  else if s = "EnumerateCollectionNode" then some .enumerateCollection
  else if s = "EnumerateListNode" then some .enumerateList
  else if s = "FilterNode" then some .filter
  else if s = "CalculationNode" then some .calculation
  else if s = "SubqueryNode" then some .subquery
  else if s = "SortNode" then some .sort
  else if s = "AggregateNode" then some .aggregate
  else if s = "LimitNode" then some .limit
  else if s = "ReturnNode" then some .returnNode
  else if s = "RemoveNode" then some .remove
  else if s = "InsertNode" then some .insert
  else if s = "UpdateNode" then some .update
  else if s = "ReplaceNode" then some .replace
  else none

mutual

/-- An execution node as a tree: id, type tag, the variables it reads
(getVariablesUsedHere) and sets (getVariablesSetHere), its ordered
dependency subtrees and an optionally attached subquery subtree. -/
inductive ENode where
  | mk (id : Nat) (tag : NType) (usedHere : List Nat) (setHere : List Nat)
      (deps : EList) (sub : ESub)

/-- A list of dependency subtrees. -/
inductive EList where
  | nil
  | cons (hd : ENode) (tl : EList)

/-- An optionally attached subquery subtree. -/
inductive ESub where
  | noSub
  | withSub (s : ENode)

end

/-- The id of a node. -/
def idOf : ENode → Nat
  | .mk i _ _ _ _ _ => i

/-- The ids of a dependency list, in order. -/
def idsOf : EList → List Nat
  | .nil => []
  | .cons d rest => idOf d :: idsOf rest

/-- The running "last created node" value pass one threads through a record
list (the source's ret variable). -/
def lastId : EList → Option Nat → Option Nat
  | .nil, acc => acc
  | .cons d rest, _ => lastId rest (some (idOf d))

mutual

/-- All node ids of a tree, subquery subtrees included, listed in the order
the corresponding persisted records are registered (dependencies first, then
the node itself, then its subquery subtree). -/
def allIds : ENode → List Nat
  | .mk i _ _ _ deps sub => allIdsList deps ++ [i] ++ allIdsSub sub

/-- allIds over a dependency list. -/
def allIdsList : EList → List Nat
  | .nil => []
  | .cons d rest => allIds d ++ allIdsList rest

/-- allIds over an optional subquery subtree. -/
def allIdsSub : ESub → List Nat
  | .noSub => []
  | .withSub s => allIds s

end

mutual

/-- Subquery nesting depth of a tree (how many fromJson recursions its
persisted form causes). -/
def sdepth : ENode → Nat
  | .mk _ _ _ _ deps sub => max (sdepthList deps) (sdepthSub sub)

/-- sdepth over a dependency list. -/
def sdepthList : EList → Nat
  | .nil => 0
  | .cons d rest => max (sdepth d) (sdepthList rest)

/-- sdepth over an optional subquery subtree. -/
def sdepthSub : ESub → Nat
  | .noSub => 0
  | .withSub s => sdepth s + 1

end

/-- Whether a node has an attached subquery subtree. -/
def hasSub : ESub → Bool
  | .noSub => false
  | .withSub _ => true

mutual

/-- A tree is subquery-well-formed when a node carries an attached subquery
subtree exactly if its tag is the Subquery tag. -/
def wfSubB : ENode → Bool
  | .mk _ tag _ _ deps sub =>
    (decide (tag = NType.subquery) == hasSub sub) && wfSubListB deps &&
      wfSubSubB sub

/-- wfSubB over a dependency list. -/
def wfSubListB : EList → Bool
  | .nil => true
  | .cons d rest => wfSubB d && wfSubListB rest

/-- wfSubB over an optional subquery subtree. -/
def wfSubSubB : ESub → Bool
  | .noSub => true
  | .withSub s => wfSubB s

end

mutual

/-- The variables read by the nodes of the main chain of a tree (subquery
subtrees are not entered). -/
def mainUses : ENode → List Nat
  | .mk _ _ uh _ deps _ => uh ++ mainUsesList deps

/-- mainUses over a dependency list. -/
def mainUsesList : EList → List Nat
  | .nil => []
  | .cons d rest => mainUses d ++ mainUsesList rest

end

mutual

/-- The variables set by the nodes of the main chain of a tree (subquery
subtrees are not entered). -/
def mainSets : ENode → List Nat
  | .mk _ _ _ sh deps _ => sh ++ mainSetsList deps

/-- mainSets over a dependency list. -/
def mainSetsList : EList → List Nat
  | .nil => []
  | .cons d rest => mainSets d ++ mainSetsList rest

end

/-- The traversal state of VarUsageFinder: the running used-later and valid
variable sets and the variable-id-to-defining-node map being accumulated. -/
structure Finder where
  usedLater : List Nat
  valid : List Nat
  varSetBy : List (Nat × Nat)
  deriving DecidableEq, Repr

/-- Insert into an unordered-set model: append unless already present. -/
def insertSet (l : List Nat) (v : Nat) : List Nat :=
  if v ∈ l then l else l ++ [v]

/-- Insert every element of the second list into the first. -/
def insertAll (l : List Nat) (xs : List Nat) : List Nat :=
  xs.foldl insertSet l

/-- Map emplace for each variable of sh mapping to node i: an existing key
is kept (unordered_map::emplace does not overwrite). -/
def emplaceAll (m : List (Nat × Nat)) (sh : List Nat) (i : Nat) :
    List (Nat × Nat) :=
  sh.foldl (fun m v => if (alookup m v).isSome then m else m ++ [(v, i)]) m

/-- The annotations the analyzer stamps on one node: the used-later snapshot
taken at the pre-visit and the valid snapshot taken at the post-visit. -/
structure Stamp where
  nodeId : Nat
  ul : List Nat
  vd : List Nat
  deriving DecidableEq, Repr

mutual

/-- The VarUsageFinder traversal.  Modelled from the spec: the walker visits
a node (before), then its dependencies in order, then an attached subquery
subtree, then revisits the node (after).  before snapshots the used-later
set into the node's annotation and then adds the node's own uses; after adds
the node's definitions to the valid set and the definer map and snapshots
the valid set.  enterSubquery (from the source) walks the subtree with a
fresh finder that copies only the valid set; that sub-finder is discarded.
Returns the finder afterwards, the stamps this finder wrote (main chain) and
the stamps written by discarded sub-finders (subquery subtrees). -/
def walkNode (f : Finder) : ENode → Finder × List Stamp × List Stamp
  | .mk i _ uh sh deps sub =>
    let ulSnap := f.usedLater
    let f1 : Finder := { f with usedLater := insertAll f.usedLater uh }
    let r := walkList f1 deps
    let f2 := r.1
    let sstamps := walkSub f2.valid sub
    let f3 : Finder := { f2 with valid := insertAll f2.valid sh,
                                 varSetBy := emplaceAll f2.varSetBy sh i }
    (f3, r.2.1 ++ [⟨i, ulSnap, f3.valid⟩], r.2.2 ++ sstamps)

/-- walkNode threaded over a dependency list. -/
def walkList (f : Finder) : EList → Finder × List Stamp × List Stamp
  | .nil => (f, [], [])
  | .cons d rest =>
    let r1 := walkNode f d
    let r2 := walkList r1.1 rest
    (r2.1, r1.2.1 ++ r2.2.1, r1.2.2 ++ r2.2.2)

/-- VarUsageFinder::enterSubquery: the attached subtree is walked by a fresh
finder holding a copy of the current valid set, an empty used-later set and
an empty definer map; everything but the stamps it wrote is discarded. -/
def walkSub (validCopy : List Nat) : ESub → List Stamp
  | .noSub => []
  | .withSub s =>
    let r := walkNode ⟨[], validCopy, []⟩ s
    r.2.1 ++ r.2.2

end

/-- ExecutionPlan::findVarUsage over the tree model: walk from an empty
finder, publish the finder's definer map and set the computed flag. -/
def findVarUsageT (t : ENode) : List (Nat × Nat) × Bool :=
  ((walkNode ⟨[], [], []⟩ t).1.varSetBy, true)

/-- The key set of an association list. -/
def keysOf {α : Type} (m : List (Nat × α)) : List Nat :=
  m.map Prod.fst

/-- The persisted document values (triagens::basics::Json).  In that API a
"List" is a sequence and an "Array" is a key/value object. -/
inductive Json where
  | jnull
  | jbool (b : Bool)
  | jnum (n : Nat)
  | jstr (s : String)
  | jlist (l : List Json)
  | jobj (fields : List (String × Json))

/-- Json::isList. -/
def Json.isList : Json → Bool
  | .jlist _ => true
  | _ => false

/-- Json::isArray (a key/value object in this API). -/
def Json.isArray : Json → Bool
  | .jobj _ => true
  | _ => false

/-- JsonHelper::isNumber. -/
def Json.isNumber : Json → Bool
  | .jnum _ => true
  | _ => false

/-- Json::get: attribute lookup on an object, an empty (null) value
otherwise or when the key is absent. -/
def jget (j : Json) (key : String) : Json :=
  match j with
  | .jobj fields => (alookup fields key).getD Json.jnull
  | _ => Json.jnull

/-- JsonHelper::getNumericValue with a default. -/
def Json.toNatD : Json → Nat → Nat
  | .jnum n, _ => n
  | _, d => d

/-- JsonHelper::checkAndGetNumericValue: the attribute must be present and
numeric, otherwise the plan is malformed. -/
def checkAndGetNat (j : Json) (key : String) : Except PErr Nat :=
  match jget j key with
  | .jnum n => .ok n
  | _ => .error (PErr.malformedPlan key)

/-- JsonHelper::checkAndGetStringValue. -/
def checkAndGetString (j : Json) (key : String) : Except PErr String :=
  match jget j key with
  | .jstr s => .ok s
  | _ => .error (PErr.malformedPlan key)

/-- Read a list of numbers out of a Json list. -/
def natsFromJson : List Json → Except PErr (List Nat)
  | [] => .ok []
  | .jnum n :: rest => do
    let l ← natsFromJson rest
    pure (n :: l)
  | _ :: _ => .error (PErr.malformedPlan "number list")

/-- The attribute must be a list of numbers. -/
def getNatList (j : Json) (key : String) : Except PErr (List Nat) :=
  match jget j key with
  | .jlist l => natsFromJson l
  | _ => .error (PErr.malformedPlan key)

/-- A reconstructed node held by the registry during deserialization: its
type tag, its persisted variable fields, the dependency ids linked so far
and the id of the root of its attached subquery subtree, if any. -/
structure RNode where
  tag : NType
  usedHere : List Nat
  setHere : List Nat
  depIds : List Nat
  sub : Option Nat
  deriving DecidableEq, Repr

/-- The id registry (_ids) during deserialization. -/
abbrev Registry : Type := List (Nat × RNode)

/-- ExecutionPlan::registerNode as called from fromJson: _ids.emplace leaves
the registry unchanged when the id already exists (see registerNode above). -/
def regEmplace (reg : Registry) (i : Nat) (e : RNode) : Registry :=
  if (alookup reg i).isSome then reg else reg ++ [(i, e)]

/-- Update the first entry with the given key. -/
def regUpdate : Registry → Nat → (RNode → RNode) → Registry
  | [], _, _ => []
  | p :: rest, i, f =>
    if p.1 = i then (p.1, f p.2) :: rest else p :: regUpdate rest i f

/-- Append one dependency id to a registered node
(ExecutionNode::addDependency as performed in fromJson's second pass; the
redundant parent back-link is implied by the dependency lists). -/
def addDepEntry (reg : Registry) (i d : Nat) : Registry :=
  regUpdate reg i (fun e => { e with depIds := e.depIds ++ [d] })

/-- ExecutionPlan::getNodeById: fails with an unknown-node error when the id
is not registered. -/
def getNodeById (reg : Registry) (i : Nat) : Except PErr RNode :=
  match alookup reg i with
  | some e => .ok e
  | none => .error (PErr.unknownNode i)

/-- Modelled from the spec: ExecutionNode::fromJsonFactory (not in the given
sources) instantiates a node from its persisted record, dispatching on the
recorded type tag and reading the persisted fields; dependencies start
empty and are linked in the second pass. -/
def fromJsonFactory (j : Json) : Except PErr (Nat × RNode) := do
  let i ← checkAndGetNat j "id"
  let ts ← checkAndGetString j "type"
  match typeOfString ts with
  | none => throw (PErr.malformedPlan "type")
  | some tag => do
    let uh ← getNatList j "usedHere"
    let sh ← getNatList j "setHere"
    pure (i, ⟨tag, uh, sh, [], none⟩)

/-- One dependency entry of pass two: non-numeric entries are silently
skipped; a numeric entry is resolved through getNodeById (raising
unknown-node on failure) and appended to the node's dependencies. -/
def relinkOne (reg : Registry) (i : Nat) (e : Json) : Except PErr Registry :=
  if e.isNumber then do
    let depId := e.toNatD 0
    let _ ← getNodeById reg depId
    pure (addDepEntry reg i depId)
  else pure reg

/-- The dependency re-linking of pass two for one record: when the
dependencies attribute is not a list (or absent, in which case jget yields
null) nothing happens at all; otherwise each entry is processed in order. -/
def relinkDeps (reg : Registry) (i : Nat) (dj : Json) : Except PErr Registry :=
  match dj with
  | Json.jlist es => es.foldlM (fun r e => relinkOne r i e) reg
  | _ => pure reg

/-- Pass two for a single record: the record must be an object, its own id
must be present, numeric and registered, then its dependencies are
re-linked. -/
def pass2Record (reg : Registry) (r : Json) : Except PErr Registry := do
  if ! r.isArray then
    throw (PErr.malformedPlan "json node is not an array")
  let thisId ← checkAndGetNat r "id"
  let _ ← getNodeById reg thisId
  relinkDeps reg thisId (jget r "dependencies")

/-- Pass two over the record list. -/
def pass2 (reg : Registry) (records : List Json) : Except PErr Registry :=
  records.foldlM pass2Record reg

/-- Pass one for a single persisted record: the record must be an object;
the node is created by the factory and registered; for a Subquery record the
nested plan under the subquery attribute is fully deserialized — sq performs
that recursive deserialization — and its root is wired into the just-created
node. -/
def pass1Step (sq : Registry → Json → Except PErr (Registry × Option Nat))
    (reg : Registry) (r : Json) : Except PErr (Registry × Nat) := do
  if ! r.isArray then
    throw (PErr.malformedPlan "json node is not an array")
  let ie ← fromJsonFactory r
  let reg1 := regEmplace reg ie.1 ie.2
  if ie.2.tag = NType.subquery then do
    let r2 ← sq reg1 (jget r "subquery")
    pure (regUpdate r2.1 ie.1 (fun en => { en with sub := r2.2 }), ie.1)
  else
    pure (reg1, ie.1)

/-- Pass one over the record list, threading the registry and the
last-created node. -/
def pass1 (sq : Registry → Json → Except PErr (Registry × Option Nat)) :
    Registry → Option Nat → List Json → Except PErr (Registry × Option Nat)
  | reg, ret, [] => pure (reg, ret)
  | reg, _, r :: rest => do
    let s ← pass1Step sq reg r
    pass1 sq s.1 (some s.2) rest

/-- ExecutionPlan::fromJson: the nodes attribute must be a list; pass one
creates and registers every node (recursing into nested subquery plans),
pass two re-links dependencies by id.  Returns the registry and the id of
the last node created (the root the source returns); fuel bounds the
subquery nesting the recursion may descend through. -/
def fromJsonFuel : Nat → Registry → Json → Except PErr (Registry × Option Nat)
  | 0, _, _ => .error PErr.fuelExhausted
  | fuel + 1, reg, j =>
    match jget j "nodes" with
    | Json.jlist records => do
      let r ← pass1 (fun reg2 j2 => fromJsonFuel fuel reg2 j2) reg none records
      let reg2 ← pass2 r.1 records
      pure (reg2, r.2)
    | _ => .error (PErr.malformedPlan "nodes is not a list")

/-- ExecutionPlan::instanciateFromJson: builds a fresh plan from the
persisted form.  The applied-rules list of the fresh plan stays empty:
fromJson never reads the rules attribute back. -/
def instanciateFromJson (fuel : Nat) (j : Json) :
    Except PErr (Registry × Option Nat × List String) := do
  let r ← fromJsonFuel fuel ([] : Registry) j
  pure (r.1, r.2, ([] : List String))

/-- A node's persisted record (modelled from the spec): its id, type tag,
dependency ids and variable fields, followed by any extra attributes (the
nested subquery plan of a Subquery node). -/
def nodeRecordJ (i : Nat) (tag : NType) (uh sh : List Nat) (ds : List Nat)
    (sf : List (String × Json)) : Json :=
  Json.jobj ([("id", Json.jnum i),
    ("type", Json.jstr (typeString tag)),
    ("dependencies", Json.jlist (ds.map Json.jnum)),
    ("usedHere", Json.jlist (uh.map Json.jnum)),
    ("setHere", Json.jlist (sh.map Json.jnum))] ++ sf)

mutual

/-- The flattened record list the node-level serialization produces
(modelled from the spec: records are emitted dependencies first, the
serialized node last, and a Subquery node nests its subtree's whole plan
under the subquery attribute). -/
def planNodes : ENode → List Json
  | .mk i tag uh sh deps sub =>
    planNodesList deps ++ [nodeRecordJ i tag uh sh (idsOf deps) (subField sub)]

/-- planNodes over a dependency list. -/
def planNodesList : EList → List Json
  | .nil => []
  | .cons d rest => planNodes d ++ planNodesList rest

/-- The subquery attribute of a Subquery node's record: the nested plan in
the same persisted shape. -/
def subField : ESub → List (String × Json)
  | .noSub => []
  | .withSub s =>
    [("subquery", Json.jobj [("nodes", Json.jlist (planNodes s)),
      ("rules", Json.jlist []), ("collections", Json.jlist [])])]

end

/-- ExecutionPlan::toJson: the root's serialized subtree together with the
applied-rules list and the collection list (empty here: no query collections
are modelled). -/
def planJsonOf (root : ENode) (rules : List String) : Json :=
  Json.jobj [("nodes", Json.jlist (planNodes root)),
    ("rules", Json.jlist (rules.map Json.jstr)),
    ("collections", Json.jlist [])]

/-- The subquery-root field an entry ends up with. -/
def subRootId : ESub → Option Nat
  | .noSub => none
  | .withSub s => some (idOf s)

mutual

/-- The registry contents produced by pass one for the records of a tree:
main-chain entries still have empty dependency lists, while entries of
nested subquery plans are already fully linked (their own fromJson ran both
passes). -/
def p1e : ENode → List (Nat × RNode)
  | .mk i tag uh sh deps sub =>
    p1eList deps ++ [(i, ⟨tag, uh, sh, [], subRootId sub⟩)] ++ p1eSub sub

/-- p1e over a dependency list. -/
def p1eList : EList → List (Nat × RNode)
  | .nil => []
  | .cons d rest => p1e d ++ p1eList rest

/-- The fully-linked entries of an attached subquery plan. -/
def p1eSub : ESub → List (Nat × RNode)
  | .noSub => []
  | .withSub s => fin s

/-- The registry contents after both passes: every entry carries its
dependency ids. -/
def fin : ENode → List (Nat × RNode)
  | .mk i tag uh sh deps sub =>
    finList deps ++ [(i, ⟨tag, uh, sh, idsOf deps, subRootId sub⟩)] ++ p1eSub sub

/-- fin over a dependency list. -/
def finList : EList → List (Nat × RNode)
  | .nil => []
  | .cons d rest => fin d ++ finList rest

end

mutual

/-- Whether the registry rooted at id i reconstructs exactly the given tree:
the registered entry carries the same tag and variable fields, its
dependency ids are the ids of the tree's dependencies in order and each
resolves recursively, and the subquery wiring matches. -/
def reconstructsTo (reg : List (Nat × RNode)) (i : Nat) : ENode → Bool
  | .mk j tag uh sh deps sub =>
    i = j &&
    (match alookup reg i with
     | none => false
     | some e =>
       e.tag = tag && e.usedHere = uh && e.setHere = sh &&
       e.depIds = idsOf deps && reconstructsList reg deps &&
       reconstructsSub reg e.sub sub)

/-- reconstructsTo over a dependency list. -/
def reconstructsList (reg : List (Nat × RNode)) : EList → Bool
  | .nil => true
  | .cons d rest =>
    reconstructsTo reg (idOf d) d && reconstructsList reg rest

/-- reconstructsTo for the subquery wiring. -/
def reconstructsSub (reg : List (Nat × RNode)) : Option Nat → ESub → Bool
  | none, .noSub => true
  | some si, .withSub s => reconstructsTo reg si s
  | none, .withSub _ => false
  | some _, .noSub => false

end

/-- A one-node plan used for the serialization counterexample. -/
def tinyTree : ENode := .mk 1 NType.singleton [] [] EList.nil ESub.noSub

/-- A small plan with a subquery: the root Return node 4 depends on the
Subquery node 3 (whose subtree is Return 6 over Singleton 5), which depends
on Singleton 1.  Used to instantiate the round-trip theorem. -/
def sampleTree : ENode :=
  .mk 4 NType.returnNode [8] []
    (EList.cons
      (.mk 3 NType.subquery [7] [8]
        (EList.cons (.mk 1 NType.singleton [] [] EList.nil ESub.noSub)
          EList.nil)
        (ESub.withSub
          (.mk 6 NType.returnNode [9] []
            (EList.cons (.mk 5 NType.singleton [] [9] EList.nil ESub.noSub)
              EList.nil)
            ESub.noSub)))
      EList.nil)
    ESub.noSub

/-- A subquery subtree used to instantiate the scoping theorem: Return node
6 using variable 9 over Singleton 5 setting variable 9. -/
def subTreeS : ENode :=
  .mk 6 NType.returnNode [9] []
    (EList.cons (.mk 5 NType.singleton [] [9] EList.nil ESub.noSub) EList.nil)
    ESub.noSub

/-- The dependency list of the concrete Subquery node: a single Singleton
node 1. -/
def sqDeps : EList :=
  EList.cons (.mk 1 NType.singleton [] [] EList.nil ESub.noSub) EList.nil

/-! Theorems.  Helper lemmas first, then one theorem per claim (with a
witness or counterexample where required). -/

theorem alookup_append_none {κ α : Type} [DecidableEq κ]
    {L R : List (κ × α)} {i : κ} (h : alookup L i = none) :
    alookup (L ++ R) i = alookup R i := by
  induction L with
  | nil => rfl
  | cons p rest ih =>
    by_cases hp : p.1 = i
    · simp [alookup, hp] at h
    · simp only [List.cons_append, alookup, hp, if_false] at h ⊢
      exact ih h

theorem alookup_append_some {κ α : Type} [DecidableEq κ]
    {L R : List (κ × α)} {i : κ} {e : α} (h : alookup L i = some e) :
    alookup (L ++ R) i = some e := by
  induction L with
  | nil => simp [alookup] at h
  | cons p rest ih =>
    simp only [alookup, List.cons_append] at h ⊢
    split at h
    · next hp => simp [hp, h]
    · next hp => simp only [hp, if_false]; exact ih h

theorem alookup_eq_none_iff {κ α : Type} [DecidableEq κ]
    {L : List (κ × α)} {i : κ} :
    alookup L i = none ↔ i ∉ L.map Prod.fst := by
  induction L with
  | nil => simp [alookup]
  | cons p rest ih =>
    simp only [alookup, List.map_cons, List.mem_cons]
    constructor
    · intro h
      split at h
      · exact absurd h (by simp)
      · next hp =>
        intro hc
        rcases hc with hc | hc
        · exact hp hc.symm
        · exact (ih.mp h) hc
    · intro h
      have h1 : ¬ p.1 = i := fun hpi => h (Or.inl hpi.symm)
      simp only [h1, if_false]
      exact ih.mpr (fun hc => h (Or.inr hc))

theorem alookup_self_of_nodup {κ α : Type} [DecidableEq κ]
    {L : List (κ × α)} (hnd : (L.map Prod.fst).Nodup) {p : κ × α}
    (hp : p ∈ L) : alookup L p.1 = some p.2 := by
  induction L with
  | nil => simp at hp
  | cons q rest ih =>
    simp only [List.map_cons, List.nodup_cons] at hnd
    rcases List.mem_cons.mp hp with rfl | hp
    · simp [alookup]
    · have hne : ¬ q.1 = p.1 := by
        intro he
        exact hnd.1 (he ▸ List.mem_map_of_mem Prod.fst hp)
      simp only [alookup, hne, if_false]
      exact ih hnd.2 hp

/-- C5: lowering a COLLECT appends (implicit temporary calculations, then)
exactly one Sort node immediately before the Aggregate node; that Sort is
stable and its key list is exactly the Aggregate node's grouping source
variables in declared order.  collectLoop invariant. -/
theorem collectLoop_calc_and_keys (groups : List (Option (Nat × AqlExpr)))
    (tmp : Nat) :
    (∀ n ∈ (collectLoop groups tmp).1, ∃ v, n = LoweredNode.calcNode v) ∧
    (collectLoop groups tmp).2.1.map Prod.fst =
      (collectLoop groups tmp).2.2.1.map Prod.snd := by
  induction groups generalizing tmp with
  | nil => simp [collectLoop]
  | cons g rest ih =>
    match g with
    | none => simpa [collectLoop] using ih tmp
    | some (v, .ref e) =>
      obtain ⟨h1, h2⟩ := ih tmp
      refine ⟨?_, by simp [collectLoop, h2]⟩
      intro n hn
      exact h1 n (by simpa [collectLoop] using hn)
    | some (v, .misc tg) =>
      obtain ⟨h1, h2⟩ := ih (tmp + 1)
      constructor
      · intro n hn
        simp only [collectLoop, List.mem_cons] at hn
        rcases hn with rfl | hn
        · exact ⟨tmp, rfl⟩
        · exact h1 n hn
      · simp [collectLoop, h2]

/-- C5: for every COLLECT statement, the appended chain segment consists of
the implicit calculation nodes (for non-variable grouping sources), then a
single stable Sort node, then the Aggregate node; the Sort node's key list
is exactly the Aggregate node's grouping source variables in declared order,
and the segment contains exactly one Sort node. -/
theorem fromNodeCollect_sort_spec (groups : List (Option (Nat × AqlExpr)))
    (outVariable : Option Nat) (tmp : Nat) :
    ∃ cs keys aggs,
      fromNodeCollect groups outVariable tmp =
        cs ++ [LoweredNode.sortNode keys true,
               LoweredNode.aggregateNode aggs outVariable] ∧
      (∀ n ∈ cs, ∃ v, n = LoweredNode.calcNode v) ∧
      keys.map Prod.fst = aggs.map Prod.snd ∧
      (fromNodeCollect groups outVariable tmp).countP isSortLN = 1 := by
  obtain ⟨h1, h2⟩ := collectLoop_calc_and_keys groups tmp
  refine ⟨(collectLoop groups tmp).1, (collectLoop groups tmp).2.1,
    (collectLoop groups tmp).2.2.1, rfl, h1, h2, ?_⟩
  rw [fromNodeCollect, List.countP_append]
  have hz : (collectLoop groups tmp).1.countP isSortLN = 0 := by
    rw [List.countP_eq_zero]
    intro n hn
    obtain ⟨v, rfl⟩ := h1 n hn
    simp [isSortLN]
  rw [hz]
  simp [List.countP_cons, isSortLN]

/-- C7: the source's registerNode does not detect a duplicate id: emplace on
an already-present key silently leaves the registry unchanged, raises no
error and does not destroy the node being registered (contradicting the
spec's DuplicateId/all-or-nothing contract and the function's own comment
that a node is deleted when the addition fails).  Evaluation at the failing
input: registry already holding id 1, registering another node with id 1. -/
theorem registerNode_duplicate_silent :
    registerNode [(1, 10)] 1 20 =
      { registry := [(1, 10)], returned := 20, error := none,
        nodeDestroyed := false } := rfl

/-- C8 counterexample: lowering an INSERT whose target collection name is
not registered does not fail with UnknownCollection — the source omits the
nullptr check that fromNodeRemove performs — and instead produces a write
node carrying an unresolved (null) collection. -/
theorem fromNodeInsert_missing_collection_counterexample :
    alookup ([] : List (String × Nat)) "c" = none ∧
    fromNodeInsert [] [] "c" (AqlExpr.ref 1) 0 =
      .ok ([], ⟨none, {}, 1, none⟩) :=
  ⟨rfl, rfl⟩

/-- C8 (amended): only REMOVE checks the collection lookup, failing with
UnknownCollection when the name is not registered; INSERT, UPDATE and
REPLACE perform no such check and succeed with the (possibly null) lookup
result as the node's collection.  In every successful case the produced
write node carries the resolved collection and the parsed modification
options. -/
theorem modification_collection_resolution :
    (∀ cols opts name expr tmp, alookup cols name = none →
      fromNodeRemove cols opts name expr tmp = .error PErr.unknownCollection) ∧
    (∀ cols opts name expr tmp c, alookup cols name = some c →
      ∃ chain node, fromNodeRemove cols opts name expr tmp = .ok (chain, node) ∧
        node.collection = some c ∧ node.options = createOptions opts) ∧
    (∀ cols opts name expr tmp,
      ∃ chain node, fromNodeInsert cols opts name expr tmp = .ok (chain, node) ∧
        node.collection = alookup cols name ∧
        node.options = createOptions opts) ∧
    (∀ cols opts name docExpr keyExpr tmp,
      ∃ chain node,
        fromNodeUpdate cols opts name docExpr keyExpr tmp = .ok (chain, node) ∧
        node.collection = alookup cols name ∧
        node.options = createOptions opts) ∧
    (∀ cols opts name docExpr keyExpr tmp,
      ∃ chain node,
        fromNodeReplace cols opts name docExpr keyExpr tmp = .ok (chain, node) ∧
        node.collection = alookup cols name ∧
        node.options = createOptions opts) := by
  refine ⟨?_, ?_, ?_, ?_, ?_⟩
  · intro cols opts name expr tmp h
    cases expr <;> simp [fromNodeRemove, h, throw, throwThe, MonadExceptOf.throw]
  · intro cols opts name expr tmp c h
    cases expr with
    | ref v =>
      refine ⟨[], ⟨some c, createOptions opts, v, none⟩, ?_, rfl, rfl⟩
      simp [fromNodeRemove, h, Bind.bind, Except.bind, Pure.pure, Except.pure]
    | misc tg =>
      refine ⟨[tmp], ⟨some c, createOptions opts, tmp, none⟩, ?_, rfl, rfl⟩
      simp [fromNodeRemove, h, Bind.bind, Except.bind, Pure.pure, Except.pure]
  · intro cols opts name expr tmp
    cases expr <;> exact ⟨_, _, rfl, rfl, rfl⟩
  · intro cols opts name docExpr keyExpr tmp
    rcases keyExpr with _ | ke
    · cases docExpr <;> exact ⟨_, _, rfl, rfl, rfl⟩
    · cases ke <;> cases docExpr <;> exact ⟨_, _, rfl, rfl, rfl⟩
  · intro cols opts name docExpr keyExpr tmp
    rcases keyExpr with _ | ke
    · cases docExpr <;> exact ⟨_, _, rfl, rfl, rfl⟩
    · cases ke <;> cases docExpr <;> exact ⟨_, _, rfl, rfl, rfl⟩

/-- C8 witness: the amended theorem applied at concrete inputs — a REMOVE
over an unregistered collection fails with UnknownCollection, and a REMOVE
over a registered one resolves it. -/
theorem modification_collection_resolution_witness :
    fromNodeRemove [] [] "c" (AqlExpr.ref 1) 0 =
      .error PErr.unknownCollection ∧
    ∃ chain node,
      fromNodeRemove [("c", 5)] [("waitForSync", true)] "c" (AqlExpr.ref 1) 0 =
        .ok (chain, node) ∧
      node.collection = some 5 ∧
      node.options = createOptions [("waitForSync", true)] :=
  ⟨modification_collection_resolution.1 [] [] "c" (AqlExpr.ref 1) 0 rfl,
   modification_collection_resolution.2.1 [("c", 5)] [("waitForSync", true)]
     "c" (AqlExpr.ref 1) 0 5 rfl⟩

theorem except_bind_ok {ε α β : Type} {x : Except ε α} {f : α → Except ε β}
    {b : β} (h : x >>= f = .ok b) : ∃ a, x = .ok a ∧ f a = .ok b := by
  cases x with
  | error e => simp [Bind.bind, Except.bind] at h
  | ok a => exact ⟨a, rfl, by simpa [Bind.bind, Except.bind] using h⟩

theorem unlinkNode_flag {p : EPlan} {x : Nat} {q : EPlan}
    (h : unlinkNode p x = .ok q) : q.varUsageComputed = false := by
  simp only [unlinkNode] at h
  split at h
  · exact absurd h (by simp)
  · injection h with h
    subst h
    rfl

theorem replaceNode_flag {p : EPlan} {a b : Nat} {q : EPlan}
    (h : replaceNode p a b = .ok q) : q.varUsageComputed = false := by
  unfold replaceNode at h
  obtain ⟨g2, _, h2⟩ := except_bind_ok h
  simp only [Pure.pure, Except.pure] at h2
  injection h2 with h2
  subst h2
  rfl

theorem insertDependency_flag {p : EPlan} {a b : Nat} {q : EPlan}
    (h : insertDependency p a b = .ok q) : q.varUsageComputed = false := by
  simp only [insertDependency] at h
  split at h
  · simp [Bind.bind, Except.bind, throw, throwThe, MonadExceptOf.throw] at h
  · simp only [Bind.bind, Except.bind, Pure.pure, Except.pure] at h
    injection h with h
    subst h
    rfl

theorem applyOp_flag {p : EPlan} {op : PlanOp} {q : EPlan}
    (h : applyOp p op = .ok q) :
    q.varUsageComputed = opFlag p.varUsageComputed op := by
  cases op with
  | unlink x => exact unlinkNode_flag h
  | replace a b => exact replaceNode_flag h
  | insertDep a b => exact insertDependency_flag h
  | findUsage =>
    injection h with h
    subst h
    rfl

theorem runOps_flag {ops : List PlanOp} :
    ∀ {p q : EPlan}, runOps p ops = .ok q →
      q.varUsageComputed = flagFold p.varUsageComputed ops := by
  induction ops with
  | nil =>
    intro p q h
    injection h with h
    subst h
    rfl
  | cons op rest ih =>
    intro p q h
    rw [runOps, List.foldlM_cons] at h
    obtain ⟨p1, h1, h2⟩ := except_bind_ok h
    rw [flagFold, List.foldl_cons, ← applyOp_flag h1]
    exact ih h2

theorem flagFold_false_mem {l : List PlanOp} (h : flagFold false l = true) :
    PlanOp.findUsage ∈ l := by
  induction l with
  | nil => simp [flagFold] at h
  | cons op rest ih =>
    cases op with
    | findUsage => exact List.mem_cons_self _ _
    | unlink x =>
      exact List.mem_cons_of_mem _ (ih (by simpa [flagFold, opFlag] using h))
    | replace a b =>
      exact List.mem_cons_of_mem _ (ih (by simpa [flagFold, opFlag] using h))
    | insertDep a b =>
      exact List.mem_cons_of_mem _ (ih (by simpa [flagFold, opFlag] using h))

/-- C6: the variable-usage-computed flag is set by a completed analyzer run
and cleared by each successful graph edit (unlinkNode, replaceNode,
insertDependency); consequently, after any successful operation sequence
that leaves the flag set, every edit in the sequence is followed by a later
analyzer run — the flag being true means no edit happened since the last
run. -/
theorem varUsageComputed_flag_discipline :
    (∀ p x q, unlinkNode p x = .ok q → q.varUsageComputed = false) ∧
    (∀ p a b q, replaceNode p a b = .ok q → q.varUsageComputed = false) ∧
    (∀ p a b q, insertDependency p a b = .ok q → q.varUsageComputed = false) ∧
    (∀ p, (findVarUsagePlan p).varUsageComputed = true) ∧
    (∀ p q ops l1 e l2, runOps p ops = .ok q → q.varUsageComputed = true →
      ops = l1 ++ e :: l2 → isEdit e = true → PlanOp.findUsage ∈ l2) := by
  refine ⟨fun _ _ _ h => unlinkNode_flag h,
    fun _ _ _ _ h => replaceNode_flag h,
    fun _ _ _ _ h => insertDependency_flag h,
    fun _ => rfl, ?_⟩
  intro p q ops l1 e l2 hrun hq hops he
  subst hops
  have hflag := runOps_flag hrun
  rw [hq] at hflag
  rw [flagFold, List.foldl_append, List.foldl_cons] at hflag
  have hedit : opFlag (List.foldl opFlag p.varUsageComputed l1) e = false := by
    cases e <;> first | rfl | simp [isEdit] at he
  rw [hedit] at hflag
  exact flagFold_false_mem hflag.symm

/-- C6 witness: a concrete successful trace — unlink node 2 of the chain
plan, then rerun the analyzer — ends with the flag set, and the theorem
applied to it places an analyzer run after the edit. -/
theorem varUsageComputed_flag_discipline_witness :
    PlanOp.findUsage ∈ [PlanOp.findUsage] := by
  have hmap : (runOps chainPlan [PlanOp.unlink 2, PlanOp.findUsage]).map
      (fun q => q.varUsageComputed) = .ok true := rfl
  cases hr : runOps chainPlan [PlanOp.unlink 2, PlanOp.findUsage] with
  | error e =>
    rw [hr] at hmap
    exact absurd hmap (by simp [Except.map])
  | ok q =>
    rw [hr] at hmap
    simp only [Except.map] at hmap
    injection hmap with hmap
    exact varUsageComputed_flag_discipline.2.2.2.2 chainPlan q
      [PlanOp.unlink 2, PlanOp.findUsage] [] (PlanOp.unlink 2)
      [PlanOp.findUsage] hr hmap rfl rfl

theorem addDependency_deps (g : Graph) (q d n : Nat) :
    (addDependency g q d).deps n = if n = q then g.deps n ++ [d] else g.deps n := by
  by_cases hn : n = q <;> simp [addDependency, setDeps, setPars, hn]

theorem addDependency_pars (g : Graph) (q d n : Nat) :
    (addDependency g q d).pars n = if n = d then g.pars n ++ [q] else g.pars n := by
  by_cases hn : n = d <;> simp [addDependency, setDeps, setPars, hn]

theorem removeDependency_deps (g : Graph) (a b n : Nat) :
    (removeDependency g a b).deps n =
      if n = a then (g.deps a).erase b else g.deps n := by
  by_cases hn : n = a <;> simp [removeDependency, setDeps, setPars, hn]

theorem removeDependency_pars (g : Graph) (a b n : Nat) :
    (removeDependency g a b).pars n =
      if n = b then (g.pars b).erase a else g.pars n := by
  by_cases hn : n = b <;> simp [removeDependency, setDeps, setPars, hn]

theorem addAll_deps (g : Graph) (q : Nat) (ds : List Nat) (n : Nat) :
    (List.foldl (fun g x => addDependency g q x) g ds).deps n =
      if n = q then g.deps n ++ ds else g.deps n := by
  induction ds generalizing g with
  | nil => by_cases hn : n = q <;> simp [hn]
  | cons d rest ih =>
    rw [List.foldl_cons, ih, addDependency_deps]
    by_cases hn : n = q <;> simp [hn]

theorem addAll_pars (g : Graph) (q : Nat) (ds : List Nat) (n : Nat)
    (hnd : ds.Nodup) (hq : q ∉ ds) :
    (List.foldl (fun g x => addDependency g q x) g ds).pars n =
      if n ∈ ds then g.pars n ++ [q] else g.pars n := by
  induction ds generalizing g with
  | nil => simp
  | cons d rest ih =>
    rw [List.nodup_cons] at hnd
    rw [List.foldl_cons, ih _ hnd.2 (fun hc => hq (List.mem_cons_of_mem _ hc)),
      addDependency_pars]
    by_cases hn1 : n = d
    · subst hn1
      simp [hnd.1]
    · by_cases hn2 : n ∈ rest <;> simp [hn1, hn2]

theorem unlink_phase1_deps (x : Nat) (ds ps : List Nat) (g : Graph) (n : Nat)
    (hps : ps.Nodup) :
    (List.foldl (fun g q => List.foldl (fun g y => addDependency g q y)
        (removeDependency g q x) ds) g ps).deps n =
      if n ∈ ps then (g.deps n).erase x ++ ds else g.deps n := by
  induction ps generalizing g with
  | nil => simp
  | cons a rest ih =>
    rw [List.nodup_cons] at hps
    rw [List.foldl_cons, ih _ hps.2, addAll_deps, removeDependency_deps]
    by_cases hn1 : n = a
    · subst hn1
      simp [hps.1]
    · by_cases hn2 : n ∈ rest <;> simp [hn1, hn2]

theorem unlink_phase1_pars (x : Nat) (ds ps : List Nat) (g : Graph) (n : Nat)
    (hps : ps.Nodup) (hds : ds.Nodup) (hxp : x ∉ ps) (hxd : x ∉ ds)
    (hdisj : ∀ a ∈ ps, a ∉ ds) :
    (List.foldl (fun g q => List.foldl (fun g y => addDependency g q y)
        (removeDependency g q x) ds) g ps).pars n =
      if n = x then List.foldl (fun l a => l.erase a) (g.pars x) ps
      else if n ∈ ds then g.pars n ++ ps
      else g.pars n := by
  induction ps generalizing g with
  | nil => by_cases hn : n = x <;> simp [hn]
  | cons a rest ih =>
    rw [List.nodup_cons] at hps
    have hxr : x ∉ rest := fun hc => hxp (List.mem_cons_of_mem _ hc)
    have hdr : ∀ b ∈ rest, b ∉ ds :=
      fun b hb => hdisj b (List.mem_cons_of_mem _ hb)
    have had : a ∉ ds := hdisj a (List.mem_cons_self _ _)
    rw [List.foldl_cons, ih _ hps.2 hxr hdr,
      addAll_pars _ _ _ _ hds had, addAll_pars _ _ _ _ hds had,
      removeDependency_pars, removeDependency_pars]
    by_cases hn1 : n = x
    · subst hn1
      simp [hxd, List.foldl_cons]
    · by_cases hn2 : n ∈ ds
      · have hnx : ¬ x = n := fun hc => hn1 hc.symm
        simp [hn1, hn2, hxd]
      · simp [hn1, hn2]

theorem unlink_phase2_deps (x : Nat) (ds : List Nat) (g : Graph) (n : Nat) :
    (List.foldl (fun g d => removeDependency g x d) g ds).deps n =
      if n = x then List.foldl (fun l d => l.erase d) (g.deps x) ds
      else g.deps n := by
  induction ds generalizing g with
  | nil => by_cases hn : n = x <;> simp [hn]
  | cons d rest ih =>
    rw [List.foldl_cons, ih, removeDependency_deps, removeDependency_deps]
    by_cases hn : n = x
    · subst hn
      simp [List.foldl_cons]
    · simp [hn]

theorem unlink_phase2_pars (x : Nat) (ds : List Nat) (g : Graph) (n : Nat)
    (hds : ds.Nodup) (hxd : x ∉ ds) :
    (List.foldl (fun g d => removeDependency g x d) g ds).pars n =
      if n ∈ ds then (g.pars n).erase x else g.pars n := by
  induction ds generalizing g with
  | nil => simp
  | cons d rest ih =>
    rw [List.nodup_cons] at hds
    have hxr : x ∉ rest := fun hc => hxd (List.mem_cons_of_mem _ hc)
    rw [List.foldl_cons, ih _ hds.2 hxr, removeDependency_pars]
    by_cases hn1 : n = d
    · subst hn1
      simp [hds.1]
    · by_cases hn2 : n ∈ rest <;> simp [hn1, hn2]

theorem foldl_erase_self (l : List Nat) (h : l.Nodup) :
    List.foldl (fun s a => s.erase a) l l = [] := by
  induction l with
  | nil => rfl
  | cons a rest ih =>
    rw [List.nodup_cons] at h
    rw [List.foldl_cons, List.erase_cons_head]
    exact ih h.2

/-- C2: for a node with at least one parent, unlinkNode reconnects each
former parent to each former dependency, removes the node from every
dependency and parent list of the graph (without touching the id registry,
so the node is not destroyed), and clears the variable-usage flag; for a
node with no parents it fails with the root-removal error, leaving the plan
untouched.  The well-formedness hypotheses mirror the DAG invariants
(duplicate-free consistent edge lists, no self-loops, no two-cycles through
the unlinked node). -/
theorem unlinkNode_spec (p : EPlan) (x : Nat) (hwf : GraphWF p.graph)
    (hxd : x ∉ p.graph.deps x) (hxp : x ∉ p.graph.pars x)
    (hdisj : ∀ a ∈ p.graph.pars x, a ∉ p.graph.deps x) :
    (p.graph.pars x = [] →
      unlinkNode p x = .error PErr.rootRemovalForbidden) ∧
    (p.graph.pars x ≠ [] →
      ∃ q, unlinkNode p x = .ok q ∧ q.ids = p.ids ∧ q.root = p.root ∧
        q.varUsageComputed = false ∧
        (∀ a ∈ p.graph.pars x, ∀ d ∈ p.graph.deps x, d ∈ q.graph.deps a) ∧
        (∀ n, x ∉ q.graph.deps n) ∧ (∀ n, x ∉ q.graph.pars n) ∧
        q.graph.deps x = [] ∧ q.graph.pars x = []) := by
  obtain ⟨hd, hp, hcons⟩ := hwf
  constructor
  · intro h
    simp [unlinkNode, h]
  · intro hne
    simp only [unlinkNode, hne, if_false]
    refine ⟨_, rfl, rfl, rfl, rfl, ?_, ?_, ?_, ?_, ?_⟩
    · intro a ha d hdm
      have hax : ¬ a = x := fun hc => hxp (hc ▸ ha)
      rw [unlink_phase2_deps, if_neg hax,
        unlink_phase1_deps _ _ _ _ _ (hp x), if_pos ha]
      exact List.mem_append.mpr (Or.inr hdm)
    · intro n
      rw [unlink_phase2_deps]
      by_cases hnx : n = x
      · rw [if_pos hnx, unlink_phase1_deps _ _ _ _ _ (hp x), if_neg hxp,
          foldl_erase_self _ (hd x)]
        simp
      · rw [if_neg hnx, unlink_phase1_deps _ _ _ _ _ (hp x)]
        by_cases hnp : n ∈ p.graph.pars x
        · rw [if_pos hnp]
          intro hmem
          rcases List.mem_append.mp hmem with hmem | hmem
          · exact absurd (((hd n).mem_erase_iff).mp hmem).1 (by simp)
          · exact hxd hmem
        · rw [if_neg hnp]
          intro hmem
          exact hnp ((hcons x n).mp hmem)
    · intro n
      rw [unlink_phase2_pars _ _ _ _ (hd x) hxd,
        unlink_phase1_pars _ _ _ _ _ (hp x) (hd x) hxp hxd hdisj]
      by_cases hnd : n ∈ p.graph.deps x
      · have hnx : ¬ n = x := fun hc => hxd (hc ▸ hnd)
        rw [if_pos hnd, if_neg hnx, if_pos hnd]
        have hxpn : x ∈ p.graph.pars n := (hcons n x).mp hnd
        rw [List.erase_append_left _ hxpn]
        intro hmem
        rcases List.mem_append.mp hmem with hmem | hmem
        · exact absurd (((hp n).mem_erase_iff).mp hmem).1 (by simp)
        · exact hxp hmem
      · rw [if_neg hnd]
        by_cases hnx : n = x
        · rw [if_pos hnx, foldl_erase_self _ (hp x)]
          simp
        · rw [if_neg hnx, if_neg hnd]
          intro hmem
          exact hnd ((hcons n x).mpr hmem)
    · rw [unlink_phase2_deps, if_pos rfl,
        unlink_phase1_deps _ _ _ _ _ (hp x), if_neg hxp,
        foldl_erase_self _ (hd x)]
    · rw [unlink_phase2_pars _ _ _ _ (hd x) hxd, if_neg hxd,
        unlink_phase1_pars _ _ _ _ _ (hp x) (hd x) hxp hxd hdisj, if_pos rfl,
        foldl_erase_self _ (hp x)]

/-- Well-formedness of the concrete chain graph. -/
theorem chainGraph_wf : GraphWF chainGraph := by
  refine ⟨?_, ?_, ?_⟩
  · intro n
    by_cases h1 : n = 1 <;> by_cases h2 : n = 2 <;> simp [chainGraph, h1, h2]
  · intro n
    by_cases h2 : n = 2 <;> by_cases h3 : n = 3 <;> simp [chainGraph, h2, h3]
  · intro a b
    by_cases hb1 : b = 1 <;> by_cases hb2 : b = 2 <;> by_cases hb3 : b = 3 <;>
      by_cases ha1 : a = 1 <;> by_cases ha2 : a = 2 <;> by_cases ha3 : a = 3 <;>
      simp_all [chainGraph]

/-- C2 witness: unlinkNode applied to node 2 of the concrete chain
1 <- 2 <- 3 succeeds, reconnects parent 1 to dependency 3 and removes node 2
from every edge list while keeping it registered. -/
theorem unlinkNode_spec_witness :
    ∃ q, unlinkNode chainPlan 2 = .ok q ∧ q.ids = chainPlan.ids ∧
      q.root = chainPlan.root ∧ q.varUsageComputed = false ∧
      3 ∈ q.graph.deps 1 ∧ (∀ n, 2 ∉ q.graph.deps n) ∧
      (∀ n, 2 ∉ q.graph.pars n) := by
  have h := (unlinkNode_spec chainPlan 2 chainGraph_wf (by decide) (by decide)
    (by decide)).2 (by decide)
  obtain ⟨q, h1, h2, h3, h4, h5, h6, h7, _⟩ := h
  exact ⟨q, h1, h2, h3, h4, h5 1 (by decide) 3 (by decide), h6, h7⟩

theorem replaceFirst_mem_new {l : List Nat} {old new : Nat} (h : old ∈ l) :
    new ∈ replaceFirst l old new := by
  induction l with
  | nil => simp at h
  | cons x rest ih =>
    by_cases hx : x = old
    · simp [replaceFirst, hx]
    · rcases List.mem_cons.mp h with h | h
      · exact absurd h.symm hx
      · simp only [replaceFirst, hx, if_false]
        exact List.mem_cons_of_mem _ (ih h)

theorem replaceFirst_not_mem_old {l : List Nat} {old new : Nat}
    (hnd : l.Nodup) (hne : old ≠ new) : old ∉ replaceFirst l old new := by
  induction l with
  | nil => simp [replaceFirst]
  | cons x rest ih =>
    rw [List.nodup_cons] at hnd
    by_cases hx : x = old
    · subst hx
      simp only [replaceFirst, if_pos rfl]
      intro hc
      rcases List.mem_cons.mp hc with hc | hc
      · exact hne hc
      · exact hnd.1 hc
    · simp only [replaceFirst, hx, if_false]
      intro hc
      rcases List.mem_cons.mp hc with hc | hc
      · exact hx hc.symm
      · exact ih hnd.2 hc

theorem transfer_deps (old new : Nat) (ds : List Nat) (g : Graph) (n : Nat)
    (hne : old ≠ new) :
    (List.foldl (fun g y => removeDependency (addDependency g new y) old y)
        g ds).deps n =
      if n = new then g.deps n ++ ds
      else if n = old then List.foldl (fun l d => l.erase d) (g.deps n) ds
      else g.deps n := by
  have hno : ¬ new = old := fun hc => hne hc.symm
  induction ds generalizing g with
  | nil => by_cases h1 : n = new <;> by_cases h2 : n = old <;> simp [h1, h2]
  | cons d rest ih =>
    rw [List.foldl_cons, ih]
    simp only [removeDependency_deps, addDependency_deps]
    by_cases h1 : n = new
    · subst h1
      simp [hno, hne, List.foldl_cons]
    · by_cases h2 : n = old
      · subst h2
        simp [hne, hno, List.foldl_cons]
      · simp [h1, h2]

theorem transfer_pars (old new : Nat) (ds : List Nat) (g : Graph) (n : Nat)
    (hnd : ds.Nodup) :
    (List.foldl (fun g y => removeDependency (addDependency g new y) old y)
        g ds).pars n =
      if n ∈ ds then (g.pars n ++ [new]).erase old else g.pars n := by
  induction ds generalizing g with
  | nil => simp
  | cons d rest ih =>
    rw [List.nodup_cons] at hnd
    rw [List.foldl_cons, ih _ hnd.2]
    simp only [removeDependency_pars, addDependency_pars]
    by_cases h1 : n = d
    · subst h1
      simp [hnd.1]
    · by_cases h2 : n ∈ rest <;> simp [h1, h2]

theorem replaceDependency_found_snd {g : Graph} {q old new : Nat}
    (h : old ∈ g.deps q) : (replaceDependency g q old new).2 = true := by
  simp [replaceDependency, h]

theorem replaceDependency_found_deps {g : Graph} {q old new : Nat}
    (h : old ∈ g.deps q) (n : Nat) :
    (replaceDependency g q old new).1.deps n =
      if n = q then replaceFirst (g.deps q) old new else g.deps n := by
  by_cases hn : n = q <;> simp [replaceDependency, h, setDeps, setPars, hn]

theorem replaceDependency_found_pars {g : Graph} {q old new : Nat}
    (h : old ∈ g.deps q) (hne : old ≠ new) (n : Nat) :
    (replaceDependency g q old new).1.pars n =
      if n = new then g.pars new ++ [q]
      else if n = old then (g.pars old).erase q
      else g.pars n := by
  have hno : ¬ new = old := fun hc => hne hc.symm
  have hon : ¬ old = new := hne
  by_cases h1 : n = new
  · subst h1
    simp [replaceDependency, h, setDeps, setPars, hno, hon]
  · by_cases h2 : n = old
    · subst h2
      simp [replaceDependency, h, setDeps, setPars, hno, hon]
    · simp [replaceDependency, h, setDeps, setPars, h1, h2]

theorem replaceDependency_not_found {g : Graph} {q old new : Nat}
    (h : old ∉ g.deps q) : replaceDependency g q old new = (g, false) := by
  simp [replaceDependency, h]

theorem replace_fold_ok (old new : Nat) (qs : List Nat) :
    ∀ g : Graph, qs.Nodup → old ∉ qs → new ∉ qs → old ≠ new →
    (∀ q ∈ qs, old ∈ g.deps q) →
    ∃ g', (List.foldlM (fun g q =>
        if (replaceDependency g q old new).2 = true
        then pure (replaceDependency g q old new).1
        else throw PErr.rewireFailed) g qs
          : Except PErr Graph) = .ok g' ∧
      (∀ n, g'.deps n =
        if n ∈ qs then replaceFirst (g.deps n) old new else g.deps n) ∧
      (∀ n, g'.pars n =
        if n = old then List.foldl (fun l a => l.erase a) (g.pars old) qs
        else if n = new then g.pars new ++ qs
        else g.pars n) := by
  induction qs with
  | nil =>
    intro g _ _ _ hne _
    refine ⟨g, rfl, fun n => by simp, fun n => ?_⟩
    by_cases h1 : n = old
    · subst h1
      simp
    · by_cases h2 : n = new
      · subst h2
        simp [h1]
      · simp [h1, h2]
  | cons q rest ih =>
    intro g hnd hoq hnq hne hall
    rw [List.nodup_cons] at hnd
    have hq : old ∈ g.deps q := hall q (List.mem_cons_self _ _)
    have hor : old ∉ rest := fun hc => hoq (List.mem_cons_of_mem _ hc)
    have hnr : new ∉ rest := fun hc => hnq (List.mem_cons_of_mem _ hc)
    obtain ⟨g', hfold, hdeps, hpars⟩ :=
      ih (replaceDependency g q old new).1 hnd.2 hor hnr hne
        (by
          intro a ha
          rw [replaceDependency_found_deps hq,
            if_neg (fun hc : a = q => hnd.1 (hc ▸ ha))]
          exact hall a (List.mem_cons_of_mem _ ha))
    refine ⟨g', ?_, ?_, ?_⟩
    · simp only [List.foldlM_cons, replaceDependency_found_snd hq, if_true,
        Bind.bind, Except.bind, Pure.pure, Except.pure]
      exact hfold
    · intro n
      rw [hdeps n]
      simp only [replaceDependency_found_deps hq]
      by_cases h1 : n = q
      · subst h1
        simp [hnd.1]
      · by_cases h2 : n ∈ rest <;> simp [h1, h2]
    · intro n
      rw [hpars n]
      simp only [replaceDependency_found_pars hq hne]
      have hon : ¬ old = new := hne
      have hno : ¬ new = old := fun hc => hne hc.symm
      by_cases h1 : n = old
      · subst h1
        simp [hon, hno, List.foldl_cons]
      · by_cases h2 : n = new
        · subst h2
          simp [hno, hon, h1]
        · simp [h1, h2]

theorem replace_fold_error (old new : Nat) (qs : List Nat) :
    ∀ g : Graph, qs.Nodup → old ∉ qs → new ∉ qs →
    (∃ a ∈ qs, old ∉ g.deps a) →
    (List.foldlM (fun g q =>
        if (replaceDependency g q old new).2 = true
        then pure (replaceDependency g q old new).1
        else throw PErr.rewireFailed) g qs
          : Except PErr Graph) = .error PErr.rewireFailed := by
  induction qs with
  | nil =>
    intro g _ _ _ hfail
    simp at hfail
  | cons q rest ih =>
    intro g hnd hoq hnq hfail
    rw [List.nodup_cons] at hnd
    by_cases hq : old ∈ g.deps q
    · simp only [List.foldlM_cons, replaceDependency_found_snd hq, if_true,
        Bind.bind, Except.bind, Pure.pure, Except.pure]
      obtain ⟨a, ha, hao⟩ := hfail
      have haq : ¬ a = q := by
        intro hc
        subst hc
        exact hao hq
      have har : a ∈ rest := by
        rcases List.mem_cons.mp ha with hc | hc
        · exact absurd hc haq
        · exact hc
      refine ih _ hnd.2 (fun hc => hoq (List.mem_cons_of_mem _ hc))
        (fun hc => hnq (List.mem_cons_of_mem _ hc)) ⟨a, har, ?_⟩
      rw [replaceDependency_found_deps hq, if_neg haq]
      exact hao
    · rw [List.foldlM_cons]
      rw [show replaceDependency g q old new = (g, false) from
        replaceDependency_not_found hq]
      simp [Bind.bind, Except.bind, throw, throwThe, MonadExceptOf.throw]

/-- C3: for a non-root old node and a registered new node with no
dependencies and a different id, replaceNode transfers the full ordered
dependency list of the old node to the new node, rewires every former
parent of the old node to depend on the new node instead of the old one,
and leaves the old node with no parents and no dependencies, clearing the
variable-usage flag; and when some parent dependency list does not
actually contain the old node, it fails with RewireFailed. -/
theorem replaceNode_spec (p : EPlan) (oldNode newNode : Nat) :
    (GraphWF p.graph → newNode ∈ p.ids → oldNode ≠ newNode →
      p.graph.deps newNode = [] → oldNode ≠ p.root →
      oldNode ∉ p.graph.deps oldNode → oldNode ∉ p.graph.pars oldNode →
      newNode ∉ p.graph.pars oldNode → newNode ∉ p.graph.deps oldNode →
      ∃ q, replaceNode p oldNode newNode = .ok q ∧ q.ids = p.ids ∧
        q.root = p.root ∧ q.varUsageComputed = false ∧
        q.graph.deps newNode = p.graph.deps oldNode ∧
        (∀ a ∈ p.graph.pars oldNode,
          newNode ∈ q.graph.deps a ∧ oldNode ∉ q.graph.deps a) ∧
        q.graph.pars oldNode = [] ∧ q.graph.deps oldNode = []) ∧
    (oldNode ≠ newNode → (p.graph.pars oldNode).Nodup →
      (∀ n, (p.graph.deps n).Nodup) →
      oldNode ∉ p.graph.deps oldNode → oldNode ∉ p.graph.pars oldNode →
      newNode ∉ p.graph.pars oldNode →
      (∃ a ∈ p.graph.pars oldNode, oldNode ∉ p.graph.deps a) →
      replaceNode p oldNode newNode = .error PErr.rewireFailed) := by
  constructor
  · intro hwf hreg hids hnew hroot hoo hop hnpar hndep
    obtain ⟨hd, hp, hcons⟩ := hwf
    simp only [replaceNode]
    set g1 := List.foldl
      (fun g x => removeDependency (addDependency g newNode x) oldNode x)
      p.graph (p.graph.deps oldNode) with hg1
    have hdeps1 : ∀ a, ¬ a = newNode → ¬ a = oldNode →
        g1.deps a = p.graph.deps a := by
      intro a hn1 hn2
      rw [hg1, transfer_deps oldNode newNode (p.graph.deps oldNode) p.graph a
        hids, if_neg hn1, if_neg hn2]
    have hparsold : g1.pars oldNode = p.graph.pars oldNode := by
      rw [hg1, transfer_pars oldNode newNode (p.graph.deps oldNode) p.graph
        oldNode (hd oldNode), if_neg hoo]
    have hdepsnew : g1.deps newNode = p.graph.deps oldNode := by
      rw [hg1, transfer_deps oldNode newNode (p.graph.deps oldNode) p.graph
        newNode hids, if_pos rfl, hnew, List.nil_append]
    have hdepsold : g1.deps oldNode = [] := by
      rw [hg1, transfer_deps oldNode newNode (p.graph.deps oldNode) p.graph
        oldNode hids, if_neg hids, if_pos rfl]
      exact foldl_erase_self _ (hd oldNode)
    have hallg : ∀ a ∈ p.graph.pars oldNode, oldNode ∈ g1.deps a := by
      intro a ha
      rw [hdeps1 a (fun hc => hnpar (hc ▸ ha)) (fun hc => hop (hc ▸ ha))]
      exact (hcons oldNode a).mpr ha
    obtain ⟨g', hfold, hdeps, hpars⟩ :=
      replace_fold_ok oldNode newNode (p.graph.pars oldNode) g1
        (hp oldNode) hop hnpar hids hallg
    rw [hparsold, hfold]
    refine ⟨{ p with graph := g', varUsageComputed := false },
      rfl, rfl, rfl, rfl, ?_, ?_, ?_, ?_⟩
    · show g'.deps newNode = p.graph.deps oldNode
      rw [hdeps newNode, if_neg hnpar, hdepsnew]
    · intro a ha
      have hao : ¬ a = oldNode := fun hc => hop (hc ▸ ha)
      have han : ¬ a = newNode := fun hc => hnpar (hc ▸ ha)
      have hda : g'.deps a = replaceFirst (p.graph.deps a) oldNode newNode := by
        rw [hdeps a, if_pos ha, hdeps1 a han hao]
      constructor
      · show newNode ∈ g'.deps a
        rw [hda]
        exact replaceFirst_mem_new ((hcons oldNode a).mpr ha)
      · show oldNode ∉ g'.deps a
        rw [hda]
        exact replaceFirst_not_mem_old (hd a) hids
    · show g'.pars oldNode = []
      rw [hpars oldNode, if_pos rfl, hparsold]
      exact foldl_erase_self _ (hp oldNode)
    · show g'.deps oldNode = []
      rw [hdeps oldNode, if_neg hop, hdepsold]
  · intro hids hpnd hdall hoo hop hnpar hfail
    simp only [replaceNode]
    set g1 := List.foldl
      (fun g x => removeDependency (addDependency g newNode x) oldNode x)
      p.graph (p.graph.deps oldNode) with hg1
    have hparsold : g1.pars oldNode = p.graph.pars oldNode := by
      rw [hg1, transfer_pars oldNode newNode (p.graph.deps oldNode) p.graph
        oldNode (hdall oldNode), if_neg hoo]
    rw [hparsold]
    obtain ⟨a, ha, hao⟩ := hfail
    have hane : ¬ a = oldNode := fun hc => hop (hc ▸ ha)
    have hann : ¬ a = newNode := fun hc => hnpar (hc ▸ ha)
    have hfail1 : oldNode ∉ g1.deps a := by
      rw [hg1, transfer_deps oldNode newNode (p.graph.deps oldNode) p.graph a
        hids, if_neg hann, if_neg hane]
      exact hao
    rw [replace_fold_error oldNode newNode (p.graph.pars oldNode) g1
      hpnd hop hnpar ⟨a, ha, hfail1⟩]
    rfl

/-- C3 witness: replacing node 2 of the concrete chain 1 <- 2 <- 3 by the
registered isolated node 4 succeeds, moves dependency 3 to node 4, rewires
parent 1 from 2 to 4, and empties the edge lists of node 2. -/
theorem replaceNode_spec_witness :
    ∃ q, replaceNode chainPlan4 2 4 = .ok q ∧ q.ids = chainPlan4.ids ∧
      q.root = chainPlan4.root ∧ q.varUsageComputed = false ∧
      q.graph.deps 4 = [3] ∧ (4 ∈ q.graph.deps 1 ∧ 2 ∉ q.graph.deps 1) ∧
      q.graph.pars 2 = [] ∧ q.graph.deps 2 = [] := by
  obtain ⟨q, h1, h2, h3, h4, h5, h6, h7, h8⟩ :=
    (replaceNode_spec chainPlan4 2 4).1 chainGraph_wf (by decide) (by decide)
      (by decide) (by decide) (by decide) (by decide) (by decide) (by decide)
  exact ⟨q, h1, h2, h3, h4, h5, h6 1 (by decide), h7, h8⟩

theorem mem_insertSet {l : List Nat} {v w : Nat} :
    w ∈ insertSet l v ↔ w ∈ l ∨ w = v := by
  by_cases h : v ∈ l
  · simp only [insertSet, h, if_true]
    constructor
    · exact Or.inl
    · intro hc
      rcases hc with hc | hc
      · exact hc
      · exact hc ▸ h
  · simp [insertSet, h]

theorem mem_insertAll {xs : List Nat} :
    ∀ {l : List Nat} {w : Nat}, w ∈ insertAll l xs ↔ w ∈ l ∨ w ∈ xs := by
  induction xs with
  | nil => intro l w; simp [insertAll]
  | cons x rest ih =>
    intro l w
    rw [insertAll, List.foldl_cons]
    have h := @ih (insertSet l x) w
    rw [insertAll] at h
    rw [h, mem_insertSet]
    simp only [List.mem_cons]
    tauto

theorem alookup_isSome_iff {κ α : Type} [DecidableEq κ]
    {L : List (κ × α)} {i : κ} :
    (alookup L i).isSome = true ↔ i ∈ L.map Prod.fst := by
  rcases h : alookup L i with _ | e
  · simp only [Option.isSome_none]
    constructor
    · intro hc
      exact absurd hc (by simp)
    · intro hc
      exact absurd (alookup_eq_none_iff.mp h) (by simp [hc])
  · simp only [Option.isSome_some, true_iff]
    by_contra hc
    rw [alookup_eq_none_iff.mpr hc] at h
    exact absurd h (by simp)

theorem keys_emplaceAll {sh : List Nat} :
    ∀ {m : List (Nat × Nat)} {i v : Nat},
      v ∈ keysOf (emplaceAll m sh i) ↔ v ∈ keysOf m ∨ v ∈ sh := by
  induction sh with
  | nil => intro m i v; simp [emplaceAll]
  | cons s rest ih =>
    intro m i v
    rw [emplaceAll, List.foldl_cons]
    by_cases hs : (alookup m s).isSome = true
    · have h := @ih m i v
      rw [emplaceAll] at h
      rw [if_pos hs, h]
      have hsm : s ∈ keysOf m := by
        simpa [keysOf] using alookup_isSome_iff.mp hs
      simp only [List.mem_cons]
      constructor
      · intro hc
        tauto
      · intro hc
        rcases hc with hc | hc | hc
        · exact Or.inl hc
        · exact Or.inl (hc ▸ hsm)
        · exact Or.inr hc
    · have h := @ih (m ++ [(s, i)]) i v
      rw [emplaceAll] at h
      rw [if_neg hs, h]
      have hx : v ∈ keysOf (m ++ [(s, i)]) ↔ v ∈ keysOf m ∨ v = s := by
        simp [keysOf]
      rw [hx]
      simp only [List.mem_cons]
      tauto

mutual

theorem walk_usedLater_mem (f : Finder) (t : ENode) (v : Nat) :
    v ∈ (walkNode f t).1.usedLater ↔ v ∈ f.usedLater ∨ v ∈ mainUses t := by
  cases t with
  | mk i tag uh sh deps sub =>
    have ih := walkList_usedLater_mem
      { f with usedLater := insertAll f.usedLater uh } deps v
    simp only [walkNode, mainUses]
    rw [ih]
    simp only [mem_insertAll, List.mem_append]
    tauto
termination_by sizeOf t

theorem walkList_usedLater_mem (f : Finder) (l : EList) (v : Nat) :
    v ∈ (walkList f l).1.usedLater ↔ v ∈ f.usedLater ∨ v ∈ mainUsesList l := by
  cases l with
  | nil => simp [walkList, mainUsesList]
  | cons d rest =>
    have ih1 := walk_usedLater_mem f d v
    have ih2 := walkList_usedLater_mem (walkNode f d).1 rest v
    simp only [walkList, mainUsesList]
    rw [ih2, ih1]
    simp only [List.mem_append]
    tauto
termination_by sizeOf l

end

mutual

theorem walk_valid_mem (f : Finder) (t : ENode) (v : Nat) :
    v ∈ (walkNode f t).1.valid ↔ v ∈ f.valid ∨ v ∈ mainSets t := by
  cases t with
  | mk i tag uh sh deps sub =>
    have ih := walkList_valid_mem
      { f with usedLater := insertAll f.usedLater uh } deps v
    simp only [walkNode, mainSets]
    rw [mem_insertAll, ih]
    simp only [List.mem_append]
    tauto
termination_by sizeOf t

theorem walkList_valid_mem (f : Finder) (l : EList) (v : Nat) :
    v ∈ (walkList f l).1.valid ↔ v ∈ f.valid ∨ v ∈ mainSetsList l := by
  cases l with
  | nil => simp [walkList, mainSetsList]
  | cons d rest =>
    have ih1 := walk_valid_mem f d v
    have ih2 := walkList_valid_mem (walkNode f d).1 rest v
    simp only [walkList, mainSetsList]
    rw [ih2, ih1]
    simp only [List.mem_append]
    tauto
termination_by sizeOf l

end

mutual

theorem walk_varSetBy_mem (f : Finder) (t : ENode) (v : Nat) :
    v ∈ keysOf (walkNode f t).1.varSetBy ↔
      v ∈ keysOf f.varSetBy ∨ v ∈ mainSets t := by
  cases t with
  | mk i tag uh sh deps sub =>
    have ih := walkList_varSetBy_mem
      { f with usedLater := insertAll f.usedLater uh } deps v
    simp only [walkNode, mainSets]
    rw [keys_emplaceAll, ih]
    simp only [List.mem_append]
    tauto
termination_by sizeOf t

theorem walkList_varSetBy_mem (f : Finder) (l : EList) (v : Nat) :
    v ∈ keysOf (walkList f l).1.varSetBy ↔
      v ∈ keysOf f.varSetBy ∨ v ∈ mainSetsList l := by
  cases l with
  | nil => simp [walkList, mainSetsList]
  | cons d rest =>
    have ih1 := walk_varSetBy_mem f d v
    have ih2 := walkList_varSetBy_mem (walkNode f d).1 rest v
    simp only [walkList, mainSetsList]
    rw [ih2, ih1]
    simp only [List.mem_append]
    tauto
termination_by sizeOf l

end

mutual

theorem walk_stamps_ul_upper (f : Finder) (t : ENode) (st : Stamp)
    (hst : st ∈ (walkNode f t).2.1) (v : Nat) (hv : v ∈ st.ul) :
    v ∈ f.usedLater ∨ v ∈ mainUses t := by
  cases t with
  | mk i tag uh sh deps sub =>
    simp only [walkNode] at hst
    rcases List.mem_append.mp hst with hst | hst
    · have ih := walkList_stamps_ul_upper
        { f with usedLater := insertAll f.usedLater uh } deps st hst v hv
      simp only [mainUses, List.mem_append]
      rcases ih with ih | ih
      · rcases mem_insertAll.mp ih with ih | ih
        · exact Or.inl ih
        · exact Or.inr (Or.inl ih)
      · exact Or.inr (Or.inr ih)
    · rw [List.mem_singleton] at hst
      subst hst
      exact Or.inl hv
termination_by sizeOf t

theorem walkList_stamps_ul_upper (f : Finder) (l : EList) (st : Stamp)
    (hst : st ∈ (walkList f l).2.1) (v : Nat) (hv : v ∈ st.ul) :
    v ∈ f.usedLater ∨ v ∈ mainUsesList l := by
  cases l with
  | nil => simp [walkList] at hst
  | cons d rest =>
    simp only [walkList] at hst
    simp only [mainUsesList, List.mem_append]
    rcases List.mem_append.mp hst with hst | hst
    · rcases walk_stamps_ul_upper f d st hst v hv with h | h
      · exact Or.inl h
      · exact Or.inr (Or.inl h)
    · rcases walkList_stamps_ul_upper (walkNode f d).1 rest st hst v hv with h | h
      · rcases (walk_usedLater_mem f d v).mp h with h | h
        · exact Or.inl h
        · exact Or.inr (Or.inl h)
      · exact Or.inr (Or.inr h)
termination_by sizeOf l

end

mutual

theorem walk_stamps_ul_lower (f : Finder) (t : ENode) (st : Stamp)
    (hst : st ∈ (walkNode f t).2.1) (v : Nat) (hv : v ∈ f.usedLater) :
    v ∈ st.ul := by
  cases t with
  | mk i tag uh sh deps sub =>
    simp only [walkNode] at hst
    rcases List.mem_append.mp hst with hst | hst
    · exact walkList_stamps_ul_lower
        { f with usedLater := insertAll f.usedLater uh } deps st hst v
        (mem_insertAll.mpr (Or.inl hv))
    · rw [List.mem_singleton] at hst
      subst hst
      exact hv
termination_by sizeOf t

theorem walkList_stamps_ul_lower (f : Finder) (l : EList) (st : Stamp)
    (hst : st ∈ (walkList f l).2.1) (v : Nat) (hv : v ∈ f.usedLater) :
    v ∈ st.ul := by
  cases l with
  | nil => simp [walkList] at hst
  | cons d rest =>
    simp only [walkList] at hst
    rcases List.mem_append.mp hst with hst | hst
    · exact walk_stamps_ul_lower f d st hst v hv
    · exact walkList_stamps_ul_lower (walkNode f d).1 rest st hst v
        ((walk_usedLater_mem f d v).mpr (Or.inl hv))
termination_by sizeOf l

end

mutual

theorem walk_stamps_valid_lower (f : Finder) (t : ENode) (st : Stamp)
    (hst : st ∈ (walkNode f t).2.1 ++ (walkNode f t).2.2) (v : Nat)
    (hv : v ∈ f.valid) : v ∈ st.vd := by
  cases t with
  | mk i tag uh sh deps sub =>
    simp only [walkNode] at hst
    have hvd : v ∈ (walkList { f with usedLater := insertAll f.usedLater uh }
        deps).1.valid :=
      (walkList_valid_mem _ deps v).mpr (Or.inl hv)
    rcases List.mem_append.mp hst with hst | hst
    · rcases List.mem_append.mp hst with hst | hst
      · exact walkList_stamps_valid_lower
          { f with usedLater := insertAll f.usedLater uh } deps st
          (List.mem_append.mpr (Or.inl hst)) v hv
      · rw [List.mem_singleton] at hst
        subst hst
        exact mem_insertAll.mpr (Or.inl hvd)
    · rcases List.mem_append.mp hst with hst | hst
      · exact walkList_stamps_valid_lower
          { f with usedLater := insertAll f.usedLater uh } deps st
          (List.mem_append.mpr (Or.inr hst)) v hv
      · cases sub with
        | noSub => simp [walkSub] at hst
        | withSub s =>
          simp only [walkSub] at hst
          exact walk_stamps_valid_lower
            ⟨[], (walkList { f with usedLater := insertAll f.usedLater uh }
              deps).1.valid, []⟩ s st hst v hvd
termination_by sizeOf t

theorem walkList_stamps_valid_lower (f : Finder) (l : EList) (st : Stamp)
    (hst : st ∈ (walkList f l).2.1 ++ (walkList f l).2.2) (v : Nat)
    (hv : v ∈ f.valid) : v ∈ st.vd := by
  cases l with
  | nil => simp [walkList] at hst
  | cons d rest =>
    simp only [walkList] at hst
    have hvd : v ∈ (walkNode f d).1.valid :=
      (walk_valid_mem f d v).mpr (Or.inl hv)
    rcases List.mem_append.mp hst with hst | hst
    · rcases List.mem_append.mp hst with hst | hst
      · exact walk_stamps_valid_lower f d st
          (List.mem_append.mpr (Or.inl hst)) v hv
      · exact walkList_stamps_valid_lower (walkNode f d).1 rest st
          (List.mem_append.mpr (Or.inl hst)) v hvd
    · rcases List.mem_append.mp hst with hst | hst
      · exact walk_stamps_valid_lower f d st
          (List.mem_append.mpr (Or.inr hst)) v hv
      · exact walkList_stamps_valid_lower (walkNode f d).1 rest st
          (List.mem_append.mpr (Or.inr hst)) v hvd
termination_by sizeOf l

end

/-- C4: when the analyzer reaches a Subquery node, (1) a variable that is
neither already pending in the used-later set nor read by any main-chain
node (so in particular one read only inside the attached subquery subtree)
never appears in the used-later annotation stamped on any main-chain node of
the traversal; (2) every variable valid on entry is in the valid annotation
of every stamped node, the subquery subtree's nodes included (the subtree is
walked with a copy of the valid set); (3) the Subquery node's own declared
uses do reach the used-later annotations of all nodes upstream of it (its
dependency subtrees — every main stamp except the Subquery node's own last
one). -/
theorem varUsage_subquery_scoping (f : Finder) (i : Nat) (tag : NType)
    (uh sh : List Nat) (deps : EList) (s : ENode) :
    (∀ v, v ∉ f.usedLater →
      v ∉ mainUses (ENode.mk i tag uh sh deps (ESub.withSub s)) →
      ∀ st ∈ (walkNode f (ENode.mk i tag uh sh deps (ESub.withSub s))).2.1,
        v ∉ st.ul) ∧
    (∀ w ∈ f.valid,
      ∀ st ∈ (walkNode f (ENode.mk i tag uh sh deps (ESub.withSub s))).2.1 ++
        (walkNode f (ENode.mk i tag uh sh deps (ESub.withSub s))).2.2,
        w ∈ st.vd) ∧
    (∀ u ∈ uh,
      ∀ st ∈ ((walkNode f
          (ENode.mk i tag uh sh deps (ESub.withSub s))).2.1).dropLast,
        u ∈ st.ul) := by
  refine ⟨?_, ?_, ?_⟩
  · intro v hv1 hv2 st hst hul
    rcases walk_stamps_ul_upper f _ st hst v hul with h | h
    · exact hv1 h
    · exact hv2 h
  · intro w hw st hst
    exact walk_stamps_valid_lower f _ st hst w hw
  · intro u hu st hst
    have hmain : ((walkNode f
        (ENode.mk i tag uh sh deps (ESub.withSub s))).2.1).dropLast =
        (walkList { f with usedLater := insertAll f.usedLater uh }
          deps).2.1 := by
      simp only [walkNode]
      rw [List.dropLast_concat]
    rw [hmain] at hst
    exact walkList_stamps_ul_lower _ deps st hst u
      (mem_insertAll.mpr (Or.inr hu))

/-- C4 witness: the scoping theorem applied to the concrete Subquery node 3
(declared use 8) over dependency Singleton 1, whose attached subtree uses
variable 9: variable 9 never reaches a main-chain used-later annotation,
the entry-valid variable 7 is valid in every stamp including the subquery
subtree's, and the declared use 8 reaches the upstream node's annotation. -/
theorem varUsage_subquery_scoping_witness :
    (∀ st ∈ (walkNode ⟨[], [7], []⟩
        (ENode.mk 3 NType.subquery [8] [] sqDeps (ESub.withSub subTreeS))).2.1,
      9 ∉ st.ul) ∧
    (∀ st ∈ (walkNode ⟨[], [7], []⟩
        (ENode.mk 3 NType.subquery [8] [] sqDeps (ESub.withSub subTreeS))).2.1 ++
      (walkNode ⟨[], [7], []⟩
        (ENode.mk 3 NType.subquery [8] [] sqDeps (ESub.withSub subTreeS))).2.2,
      7 ∈ st.vd) ∧
    (∀ st ∈ ((walkNode ⟨[], [7], []⟩
        (ENode.mk 3 NType.subquery [8] [] sqDeps
          (ESub.withSub subTreeS))).2.1).dropLast,
      8 ∈ st.ul) := by
  obtain ⟨h1, h2, h3⟩ := varUsage_subquery_scoping ⟨[], [7], []⟩ 3
    NType.subquery [8] [] sqDeps subTreeS
  exact ⟨h1 9 (by decide) (by decide), h2 7 (by decide),
    fun st hst => h3 8 (by decide) st hst⟩

/-- C9: after the analyzer runs, the published variable-id-to-defining-node
mapping contains exactly the variables set by main-chain nodes: a variable
is a key of the mapping iff some node of the main (non-subquery) chain sets
it — definitions made inside a Subquery node's attached subtree accumulate
in the discarded sub-finder and are absent unless also set on the main
chain. -/
theorem findVarUsage_main_chain_definers (t : ENode) (v : Nat) :
    v ∈ keysOf (findVarUsageT t).1 ↔ v ∈ mainSets t := by
  have h := walk_varSetBy_mem ⟨[], [], []⟩ t v
  simpa [findVarUsageT, keysOf] using h

/-- C10: in deserialization's dependency re-linking pass, a dependencies
attribute that is not a list (including the null produced for a missing
attribute) is silently skipped leaving the registry unchanged, every
non-numeric entry of a dependency list is silently skipped, and an error
surfaces exactly when a numeric dependency id does not resolve to a
registered node (the unknown-node lookup failure). -/
theorem fromJson_pass2_dependency_handling :
    (∀ (reg : Registry) (i : Nat) (dj : Json), dj.isList = false →
      relinkDeps reg i dj = .ok reg) ∧
    (∀ (reg : Registry) (i : Nat) (es : List Json),
      (∀ e ∈ es, e.isNumber = false) →
      relinkDeps reg i (Json.jlist es) = .ok reg) ∧
    (∀ (reg : Registry) (i d : Nat), alookup reg d = none →
      relinkDeps reg i (Json.jlist [Json.jnum d]) =
        .error (PErr.unknownNode d)) := by
  refine ⟨?_, ?_, ?_⟩
  · intro reg i dj h
    cases dj with
    | jlist l => simp [Json.isList] at h
    | jnull => rfl
    | jbool b => rfl
    | jnum n => rfl
    | jstr s => rfl
    | jobj o => rfl
  · intro reg i es h
    induction es with
    | nil => rfl
    | cons e rest ih =>
      have he : e.isNumber = false := h e (List.mem_cons_self _ _)
      have hstep : relinkOne reg i e = pure reg := by
        simp [relinkOne, he]
      show List.foldlM (fun r e => relinkOne r i e) reg (e :: rest) = .ok reg
      rw [List.foldlM_cons, hstep, pure_bind]
      exact ih (fun e2 he2 => h e2 (List.mem_cons_of_mem _ he2))
  · intro reg i d h
    show List.foldlM (fun r e => relinkOne r i e) reg [Json.jnum d] =
      .error (PErr.unknownNode d)
    rw [List.foldlM_cons]
    have hstep : relinkOne reg i (Json.jnum d) =
        .error (PErr.unknownNode d) := by
      simp [relinkOne, Json.isNumber, Json.toNatD, getNodeById, h,
        Bind.bind, Except.bind]
    rw [hstep]
    rfl

/-- C10 witness: on a registry holding only node 1, a non-list dependencies
value and a list of non-numeric entries are skipped without error, while a
numeric entry naming the unregistered id 7 raises the unknown-node error. -/
theorem fromJson_pass2_dependency_handling_witness :
    relinkDeps [(1, ⟨NType.singleton, [], [], [], none⟩)] 1 (Json.jnum 0) =
      .ok [(1, ⟨NType.singleton, [], [], [], none⟩)] ∧
    relinkDeps [(1, ⟨NType.singleton, [], [], [], none⟩)] 1
      (Json.jlist [Json.jstr "x"]) =
      .ok [(1, ⟨NType.singleton, [], [], [], none⟩)] ∧
    relinkDeps [(1, ⟨NType.singleton, [], [], [], none⟩)] 1
      (Json.jlist [Json.jnum 7]) = .error (PErr.unknownNode 7) :=
  ⟨fromJson_pass2_dependency_handling.1 _ 1 _ rfl,
   fromJson_pass2_dependency_handling.2.1 _ 1 _
     (by intro e he; simp at he; rw [he]; rfl),
   fromJson_pass2_dependency_handling.2.2 _ 1 7 rfl⟩

theorem idOf_mem_allIds (t : ENode) : idOf t ∈ allIds t := by
  cases t with
  | mk i tag uh sh deps sub => simp [idOf, allIds]

theorem idsOf_subset_allIdsList (l : EList) :
    ∀ d ∈ idsOf l, d ∈ allIdsList l := by
  cases l with
  | nil => simp [idsOf, allIdsList]
  | cons d rest =>
    have ih := idsOf_subset_allIdsList rest
    intro x hx
    simp only [idsOf, List.mem_cons] at hx
    simp only [allIdsList, List.mem_append]
    rcases hx with hx | hx
    · exact Or.inl (hx ▸ idOf_mem_allIds d)
    · exact Or.inr (ih x hx)
termination_by sizeOf l

mutual

theorem keys_p1e (t : ENode) : (p1e t).map Prod.fst = allIds t := by
  cases t with
  | mk i tag uh sh deps sub =>
    have ih1 := keys_p1eList deps
    have ih2 := keys_p1eSub sub
    simp [p1e, allIds, ih1, ih2]
termination_by sizeOf t

theorem keys_p1eList (l : EList) : (p1eList l).map Prod.fst = allIdsList l := by
  cases l with
  | nil => rfl
  | cons d rest =>
    have ih1 := keys_p1e d
    have ih2 := keys_p1eList rest
    simp [p1eList, allIdsList, ih1, ih2]
termination_by sizeOf l

theorem keys_p1eSub (u : ESub) : (p1eSub u).map Prod.fst = allIdsSub u := by
  cases u with
  | noSub => rfl
  | withSub s =>
    have ih := keys_fin s
    simp [p1eSub, allIdsSub, ih]
termination_by sizeOf u

theorem keys_fin (t : ENode) : (fin t).map Prod.fst = allIds t := by
  cases t with
  | mk i tag uh sh deps sub =>
    have ih1 := keys_finList deps
    have ih2 := keys_p1eSub sub
    simp [fin, allIds, ih1, ih2]
termination_by sizeOf t

theorem keys_finList (l : EList) : (finList l).map Prod.fst = allIdsList l := by
  cases l with
  | nil => rfl
  | cons d rest =>
    have ih1 := keys_fin d
    have ih2 := keys_finList rest
    simp [finList, allIdsList, ih1, ih2]
termination_by sizeOf l

end

theorem regUpdate_keys (reg : Registry) (i : Nat) (f : RNode → RNode) :
    (regUpdate reg i f).map Prod.fst = reg.map Prod.fst := by
  induction reg with
  | nil => rfl
  | cons p rest ih =>
    by_cases hp : p.1 = i <;> simp [regUpdate, hp, ih]

theorem regUpdate_congr {f g : RNode → RNode} (h : ∀ e, f e = g e)
    (reg : Registry) (i : Nat) : regUpdate reg i f = regUpdate reg i g := by
  induction reg with
  | nil => rfl
  | cons p rest ih =>
    by_cases hp : p.1 = i <;> simp [regUpdate, hp, ih, h]

theorem regUpdate_id {f : RNode → RNode} (h : ∀ e, f e = e)
    (reg : Registry) (i : Nat) : regUpdate reg i f = reg := by
  induction reg with
  | nil => rfl
  | cons p rest ih =>
    by_cases hp : p.1 = i
    · rw [regUpdate, if_pos hp, h]
    · rw [regUpdate, if_neg hp, ih]

theorem regUpdate_comp (reg : Registry) (i : Nat) (f g : RNode → RNode) :
    regUpdate (regUpdate reg i f) i g = regUpdate reg i (fun e => g (f e)) := by
  induction reg with
  | nil => rfl
  | cons p rest ih =>
    by_cases hp : p.1 = i
    · simp [regUpdate, hp]
    · simp [regUpdate, hp, ih]

theorem regUpdate_append (L R : Registry) (i : Nat) (f : RNode → RNode)
    (h : alookup L i = none) :
    regUpdate (L ++ R) i f = L ++ regUpdate R i f := by
  induction L with
  | nil => rfl
  | cons p rest ih =>
    by_cases hp : p.1 = i
    · simp [alookup, hp] at h
    · simp only [alookup, hp, if_false] at h
      simp [regUpdate, hp, ih h]

theorem regUpdate_cons_hit (R : Registry) (i : Nat) (e : RNode)
    (f : RNode → RNode) : regUpdate ((i, e) :: R) i f = (i, f e) :: R := by
  simp [regUpdate]

theorem natsFromJson_map (l : List Nat) :
    natsFromJson (l.map Json.jnum) = .ok l := by
  induction l with
  | nil => rfl
  | cons n rest ih =>
    simp only [List.map_cons, natsFromJson, ih]
    rfl

theorem typeOfString_typeString (t : NType) :
    typeOfString (typeString t) = some t := by
  cases t <;> rfl

theorem fromJsonFactory_record (i : Nat) (tag : NType) (uh sh : List Nat)
    (ds : List Nat) (sf : List (String × Json)) :
    fromJsonFactory (nodeRecordJ i tag uh sh ds sf) =
      .ok (i, ⟨tag, uh, sh, [], none⟩) := by
  have h1 : checkAndGetNat (nodeRecordJ i tag uh sh ds sf) "id" =
      .ok i := rfl
  have h2 : checkAndGetString (nodeRecordJ i tag uh sh ds sf) "type" =
      .ok (typeString tag) := rfl
  have h3 : getNatList (nodeRecordJ i tag uh sh ds sf) "usedHere" =
      natsFromJson (uh.map Json.jnum) := rfl
  have h4 : getNatList (nodeRecordJ i tag uh sh ds sf) "setHere" =
      natsFromJson (sh.map Json.jnum) := rfl
  rw [fromJsonFactory, h1, h2]
  simp only [Bind.bind, Except.bind, typeOfString_typeString, h3, h4,
    natsFromJson_map]
  rfl

theorem relink_numeric (i : Nat) (ds : List Nat) :
    ∀ reg : Registry, (∀ d ∈ ds, d ∈ keysOf reg) →
    (List.foldlM (fun r e => relinkOne r i e) reg (ds.map Json.jnum)
      : Except PErr Registry) =
      .ok (regUpdate reg i
        (fun en => { en with depIds := en.depIds ++ ds })) := by
  induction ds with
  | nil =>
    intro reg _
    rw [List.map_nil, List.foldlM_nil,
      regUpdate_id (fun e => by simp) reg i]
    rfl
  | cons d rest ih =>
    intro reg hds
    obtain ⟨e, he⟩ := Option.isSome_iff_exists.mp
      (alookup_isSome_iff.mpr (hds d (List.mem_cons_self _ _)))
    have hstep : relinkOne reg i (Json.jnum d) =
        .ok (addDepEntry reg i d) := by
      simp [relinkOne, Json.isNumber, Json.toNatD, getNodeById, he,
        Bind.bind, Except.bind, Pure.pure, Except.pure]
    rw [List.map_cons, List.foldlM_cons, hstep]
    have hrest := ih (addDepEntry reg i d)
      (by
        intro x hx
        have : keysOf (addDepEntry reg i d) = keysOf reg :=
          regUpdate_keys reg i _
        rw [this]
        exact hds x (List.mem_cons_of_mem _ hx))
    simp only [Bind.bind, Except.bind]
    rw [hrest, addDepEntry, regUpdate_comp]
    congr 1
    apply regUpdate_congr
    intro e
    simp

theorem pass2_append (reg : Registry) (l1 l2 : List Json) :
    pass2 reg (l1 ++ l2) = pass2 reg l1 >>= fun r => pass2 r l2 := by
  simp [pass2, List.foldlM_append]

theorem pass2Record_record (reg : Registry) (i : Nat) (tag : NType)
    (uh sh : List Nat) (ds : List Nat) (sf : List (String × Json)) (e : RNode)
    (he : alookup reg i = some e) (hds : ∀ d ∈ ds, d ∈ keysOf reg) :
    pass2Record reg (nodeRecordJ i tag uh sh ds sf) =
      .ok (regUpdate reg i
        (fun en => { en with depIds := en.depIds ++ ds })) := by
  have h1 : checkAndGetNat (nodeRecordJ i tag uh sh ds sf) "id" =
      .ok i := rfl
  have h2 : jget (nodeRecordJ i tag uh sh ds sf) "dependencies" =
      Json.jlist (ds.map Json.jnum) := rfl
  have h3 : (nodeRecordJ i tag uh sh ds sf).isArray = true := rfl
  have h4 : getNodeById reg i = .ok e := by
    simp [getNodeById, he]
  rw [pass2Record, h3]
  simp only [Bool.not_true, Bool.false_eq_true, if_false, h1, h4, h2,
    Bind.bind, Except.bind]
  rw [relinkDeps]
  exact relink_numeric i ds reg hds

theorem allIds_parts {i : Nat} {tag : NType} {uh sh : List Nat} {deps : EList}
    {sub : ESub} (h : (allIds (ENode.mk i tag uh sh deps sub)).Nodup) :
    (allIdsList deps).Nodup ∧ (allIdsSub sub).Nodup ∧
    i ∉ allIdsList deps ∧ i ∉ allIdsSub sub ∧
    (∀ j ∈ allIdsList deps, j ∉ allIdsSub sub) := by
  simp only [allIds] at h
  rw [List.append_assoc, List.nodup_append] at h
  obtain ⟨h1, h2, h3⟩ := h
  rw [show ([i] ++ allIdsSub sub) = i :: allIdsSub sub from rfl,
    List.nodup_cons] at h2
  refine ⟨h1, h2.2, ?_, h2.1, ?_⟩
  · intro hc
    exact h3 hc (List.mem_cons_self _ _)
  · intro j hj hc
    exact h3 hj (List.mem_cons_of_mem _ hc)

theorem allIdsList_parts {d : ENode} {rest : EList}
    (h : (allIdsList (EList.cons d rest)).Nodup) :
    (allIds d).Nodup ∧ (allIdsList rest).Nodup ∧
    (∀ j ∈ allIds d, j ∉ allIdsList rest) := by
  simp only [allIdsList] at h
  rw [List.nodup_append] at h
  exact ⟨h.1, h.2.1, h.2.2⟩

mutual

theorem pass2_planNodes (t : ENode) : ∀ (RL RR : Registry),
    (∀ j ∈ allIds t, alookup RL j = none) → (allIds t).Nodup →
    pass2 (RL ++ p1e t ++ RR) (planNodes t) = .ok (RL ++ fin t ++ RR) := by
  cases t with
  | mk i tag uh sh deps sub =>
    intro RL RR hRL hnd
    obtain ⟨hnd1, hnd2, hid, his, hdisj⟩ := allIds_parts hnd
    have hiRL : alookup RL i = none :=
      hRL i (by simp [allIds])
    have hRL1 : ∀ j ∈ allIdsList deps, alookup RL j = none := by
      intro j hj
      exact hRL j (by simp [allIds, hj])
    have e1 : RL ++ p1e (ENode.mk i tag uh sh deps sub) ++ RR =
        RL ++ p1eList deps ++
          ([(i, ⟨tag, uh, sh, [], subRootId sub⟩)] ++ (p1eSub sub ++ RR)) := by
      simp [p1e, List.append_assoc]
    have e2 : planNodes (ENode.mk i tag uh sh deps sub) =
        planNodesList deps ++
          [nodeRecordJ i tag uh sh (idsOf deps) (subField sub)] := rfl
    rw [e1, e2, pass2_append,
      pass2_planNodesList deps RL _ hRL1 hnd1]
    have hbind : ∀ (l : List Json) (x : Registry),
        ((Except.ok x : Except PErr Registry) >>= fun r2 => pass2 r2 l) =
          pass2 x l := fun l x => rfl
    rw [hbind]
    set RM := RL ++ finList deps with hRM
    have hkeysM : (finList deps).map Prod.fst = allIdsList deps :=
      keys_finList deps
    have hRMi : alookup RM i = none := by
      rw [hRM, alookup_eq_none_iff, List.map_append, hkeysM]
      intro hc
      rcases List.mem_append.mp hc with hc | hc
      · exact absurd hc (alookup_eq_none_iff.mp hiRL)
      · exact hid hc
    have hlook : alookup
        (RM ++ ([(i, ⟨tag, uh, sh, [], subRootId sub⟩)] ++ (p1eSub sub ++ RR)))
        i = some ⟨tag, uh, sh, [], subRootId sub⟩ := by
      rw [alookup_append_none hRMi]
      simp [alookup]
    have hds : ∀ d ∈ idsOf deps, d ∈ keysOf
        (RM ++ ([(i, ⟨tag, uh, sh, [], subRootId sub⟩)] ++
          (p1eSub sub ++ RR))) := by
      intro d hd
      have hd2 : d ∈ allIdsList deps := idsOf_subset_allIdsList deps d hd
      rw [hRM]
      simp only [keysOf, List.map_append, List.mem_append]
      exact Or.inl (Or.inr (hkeysM ▸ hd2))
    have hsingle : ∀ (reg : Registry) (r : Json),
        pass2 reg [r] = pass2Record reg r >>= fun x => pure x := by
      intro reg r
      simp [pass2]
    rw [hsingle, pass2Record_record _ i tag uh sh (idsOf deps) _ _ hlook hds,
      bind_pure]
    have hupd : regUpdate (RM ++ ([(i, ⟨tag, uh, sh, [], subRootId sub⟩)] ++
        (p1eSub sub ++ RR))) i
        (fun en => { en with depIds := en.depIds ++ idsOf deps }) =
        RM ++ ([(i, ⟨tag, uh, sh, idsOf deps, subRootId sub⟩)] ++
          (p1eSub sub ++ RR)) := by
      rw [regUpdate_append _ _ _ _ hRMi]
      congr 1
      rw [show ([(i, (⟨tag, uh, sh, [], subRootId sub⟩ : RNode))] ++
          (p1eSub sub ++ RR)) = ((i, (⟨tag, uh, sh, [],
            subRootId sub⟩ : RNode)) :: (p1eSub sub ++ RR)) from rfl,
        regUpdate_cons_hit]
      rfl
    rw [hupd, hRM]
    congr 1
    simp [fin, List.append_assoc]
termination_by sizeOf t

theorem pass2_planNodesList (l : EList) : ∀ (RL RR : Registry),
    (∀ j ∈ allIdsList l, alookup RL j = none) → (allIdsList l).Nodup →
    pass2 (RL ++ p1eList l ++ RR) (planNodesList l) =
      .ok (RL ++ finList l ++ RR) := by
  cases l with
  | nil =>
    intro RL RR _ _
    rfl
  | cons d rest =>
    intro RL RR hRL hnd
    obtain ⟨hnd1, hnd2, hdisj⟩ := allIdsList_parts hnd
    have e1 : RL ++ p1eList (EList.cons d rest) ++ RR =
        RL ++ p1e d ++ (p1eList rest ++ RR) := by
      simp [p1eList, List.append_assoc]
    have e2 : planNodesList (EList.cons d rest) =
        planNodes d ++ planNodesList rest := rfl
    rw [e1, e2, pass2_append, pass2_planNodes d RL (p1eList rest ++ RR)
      (fun j hj => hRL j (by simp [allIdsList, hj])) hnd1]
    have hbind : ∀ (l2 : List Json) (x : Registry),
        ((Except.ok x : Except PErr Registry) >>= fun r2 => pass2 r2 l2) =
          pass2 x l2 := fun l2 x => rfl
    rw [hbind]
    have e3 : RL ++ fin d ++ (p1eList rest ++ RR) =
        (RL ++ fin d) ++ p1eList rest ++ RR := by
      simp [List.append_assoc]
    rw [e3, pass2_planNodesList rest (RL ++ fin d) RR (by
      intro j hj
      rw [alookup_eq_none_iff, List.map_append, keys_fin d]
      intro hc
      rcases List.mem_append.mp hc with hc | hc
      · exact absurd hc (alookup_eq_none_iff.mp
          (hRL j (by simp [allIdsList, hj])))
      · exact hdisj j hc hj) hnd2]
    congr 2
    simp [finList, List.append_assoc]
termination_by sizeOf l

end

theorem pass1_append
    (sq : Registry → Json → Except PErr (Registry × Option Nat))
    (l1 l2 : List Json) :
    ∀ (R : Registry) (acc : Option Nat),
    pass1 sq R acc (l1 ++ l2) =
      pass1 sq R acc l1 >>= fun r => pass1 sq r.1 r.2 l2 := by
  induction l1 with
  | nil =>
    intro R acc
    rw [List.nil_append]
    rfl
  | cons r rest ih =>
    intro R acc
    rw [List.cons_append]
    simp only [pass1]
    cases hs : pass1Step sq R r with
    | error e => simp [hs, Bind.bind, Except.bind]
    | ok s =>
      simp only [hs, Bind.bind, Except.bind]
      exact ih s.1 (some s.2)

mutual

theorem fromJson_plan (s : ENode) : ∀ (fuel : Nat) (R : Registry) (j : Json),
    jget j "nodes" = Json.jlist (planNodes s) → sdepth s < fuel →
    (∀ x ∈ allIds s, alookup R x = none) → (allIds s).Nodup →
    wfSubB s = true →
    fromJsonFuel fuel R j = .ok (R ++ fin s, some (idOf s)) := by
  intro fuel R j hj hfuel hR hnd hwf
  cases fuel with
  | zero => omega
  | succ k =>
    have hp1 : pass1 (fun reg2 j2 => fromJsonFuel k reg2 j2) R none
        (planNodes s) = .ok (R ++ p1e s, some (idOf s)) :=
      pass1_planNodes s k R none (by omega) hR hnd hwf
    have hp2 : pass2 (R ++ p1e s) (planNodes s) = .ok (R ++ fin s) := by
      have h := pass2_planNodes s R [] hR hnd
      simpa using h
    rw [fromJsonFuel, hj]
    show (do
      let r ← pass1 (fun reg2 j2 => fromJsonFuel k reg2 j2) R none
        (planNodes s)
      let reg2 ← pass2 r.1 (planNodes s)
      pure (reg2, r.2) : Except PErr (Registry × Option Nat)) =
      .ok (R ++ fin s, some (idOf s))
    rw [hp1]
    simp only [Bind.bind, Except.bind]
    rw [hp2]
    rfl
termination_by (sizeOf s, 2)

theorem pass1_planNodes (t : ENode) : ∀ (fuel : Nat) (R : Registry)
    (acc : Option Nat), sdepth t ≤ fuel →
    (∀ x ∈ allIds t, alookup R x = none) → (allIds t).Nodup →
    wfSubB t = true →
    pass1 (fun reg2 j2 => fromJsonFuel fuel reg2 j2) R acc (planNodes t) =
      .ok (R ++ p1e t, some (idOf t)) := by
  cases t with
  | mk i tag uh sh deps sub =>
    intro fuel R acc hfuel hR hnd hwf
    obtain ⟨hnd1, hnd2, hid, his, hdisj⟩ := allIds_parts hnd
    have hiR : alookup R i = none := hR i (by simp [allIds])
    have hwf1 : (decide (tag = NType.subquery) == hasSub sub) = true ∧
        wfSubListB deps = true ∧ wfSubSubB sub = true := by
      simp only [wfSubB, Bool.and_eq_true] at hwf
      exact ⟨hwf.1.1, hwf.1.2, hwf.2⟩
    have e2 : planNodes (ENode.mk i tag uh sh deps sub) =
        planNodesList deps ++
          [nodeRecordJ i tag uh sh (idsOf deps) (subField sub)] := rfl
    rw [e2, pass1_append, pass1_planNodesList deps fuel R acc
      (le_trans (le_max_left _ _) hfuel)
      (fun x hx => hR x (by simp [allIds, hx])) hnd1 hwf1.2.1]
    have hbind : ∀ (l : List Json) (x : Registry × Option Nat),
        ((Except.ok x : Except PErr (Registry × Option Nat)) >>= fun r =>
          pass1 (fun reg2 j2 => fromJsonFuel fuel reg2 j2) r.1 r.2 l) =
          pass1 (fun reg2 j2 => fromJsonFuel fuel reg2 j2) x.1 x.2 l :=
      fun l x => rfl
    rw [hbind]
    have hfac := fromJsonFactory_record i tag uh sh (idsOf deps) (subField sub)
    have hR1i : alookup (R ++ p1eList deps) i = none := by
      rw [alookup_eq_none_iff, List.map_append, keys_p1eList]
      intro hc
      rcases List.mem_append.mp hc with hc | hc
      · exact absurd hc (alookup_eq_none_iff.mp hiR)
      · exact hid hc
    have hemp : regEmplace (R ++ p1eList deps) i
        (⟨tag, uh, sh, [], none⟩ : RNode) =
        (R ++ p1eList deps) ++ [(i, ⟨tag, uh, sh, [], none⟩)] := by
      simp [regEmplace, hR1i]
    have hisA : (nodeRecordJ i tag uh sh (idsOf deps)
        (subField sub)).isArray = true := rfl
    cases sub with
    | noSub =>
      have htag : ¬ tag = NType.subquery := by
        have h := hwf1.1
        simp [hasSub] at h
        exact h
      have hstep : pass1Step (fun reg2 j2 => fromJsonFuel fuel reg2 j2)
          (R ++ p1eList deps)
          (nodeRecordJ i tag uh sh (idsOf deps) (subField ESub.noSub)) =
          .ok ((R ++ p1eList deps) ++ [(i, ⟨tag, uh, sh, [], none⟩)], i) := by
        rw [pass1Step]
        simp [hisA, hfac, hemp, htag, Bind.bind, Except.bind, Pure.pure,
          Except.pure]
      simp only [pass1, hstep, Bind.bind, Except.bind]
      simp [p1e, p1eSub, subRootId, Pure.pure, Except.pure,
        List.append_assoc, idOf]
    | withSub s2 =>
      have htag : tag = NType.subquery := by
        have h := hwf1.1
        simp [hasSub] at h
        exact h
      subst htag
      have hfuel2 : sdepth s2 < fuel := by
        have h := le_trans (le_max_right (sdepthList deps) (sdepth s2 + 1))
          hfuel
        omega
      have hR2 : ∀ x ∈ allIds s2, alookup
          ((R ++ p1eList deps) ++ [(i, (⟨NType.subquery, uh, sh, [],
            none⟩ : RNode))]) x = none := by
        intro x hx
        have hxsub : x ∈ allIdsSub (ESub.withSub s2) := by
          simpa [allIdsSub] using hx
        rw [alookup_eq_none_iff, List.map_append, List.map_append,
          keys_p1eList]
        intro hc
        rcases List.mem_append.mp hc with hc | hc
        · rcases List.mem_append.mp hc with hc | hc
          · exact absurd hc (alookup_eq_none_iff.mp
              (hR x (by simp [allIds, hxsub])))
          · exact hdisj x hc hxsub
        · have hxi : x = i := by simpa using hc
          exact his (hxi ▸ hxsub)
      have hnested := fromJson_plan s2 fuel
        ((R ++ p1eList deps) ++ [(i, ⟨NType.subquery, uh, sh, [], none⟩)])
        (jget (nodeRecordJ i NType.subquery uh sh (idsOf deps)
          (subField (ESub.withSub s2))) "subquery") rfl hfuel2 hR2
        (by simpa [allIdsSub] using hnd2)
        (by simpa [wfSubSubB] using hwf1.2.2)
      have hstep : pass1Step (fun reg2 j2 => fromJsonFuel fuel reg2 j2)
          (R ++ p1eList deps)
          (nodeRecordJ i NType.subquery uh sh (idsOf deps)
            (subField (ESub.withSub s2))) =
          .ok ((R ++ p1eList deps) ++
            ((i, ⟨NType.subquery, uh, sh, [], some (idOf s2)⟩) :: fin s2),
            i) := by
        rw [pass1Step]
        simp only [hisA, Bool.not_true, Bool.false_eq_true, if_false]
        simp only [hfac, Bind.bind, Except.bind, Pure.pure, Except.pure]
        rw [hemp]
        have hif : ((⟨NType.subquery, uh, sh, [], none⟩ : RNode).tag =
            NType.subquery) = True := by simp
        simp only [hif, if_true]
        rw [hnested]
        simp only [Bind.bind, Except.bind]
        have hupd : regUpdate (((R ++ p1eList deps) ++ [(i, ⟨NType.subquery,
            uh, sh, [], none⟩)]) ++ fin s2) i
            (fun en => { en with sub := some (idOf s2) }) =
            (R ++ p1eList deps) ++
              ((i, ⟨NType.subquery, uh, sh, [], some (idOf s2)⟩) ::
                fin s2) := by
          rw [show (((R ++ p1eList deps) ++ [(i, (⟨NType.subquery, uh, sh, [],
              none⟩ : RNode))]) ++ fin s2) = ((R ++ p1eList deps) ++
              ((i, (⟨NType.subquery, uh, sh, [], none⟩ : RNode)) ::
                fin s2)) from by simp,
            regUpdate_append _ _ _ _ hR1i, regUpdate_cons_hit]
        rw [hupd]
      simp only [pass1, hstep, Bind.bind, Except.bind]
      simp only [p1e, p1eSub, subRootId, Pure.pure, Except.pure]
      rw [show idOf (ENode.mk i NType.subquery uh sh deps
        (ESub.withSub s2)) = i from rfl]
      congr 2
      simp [List.append_assoc]
termination_by (sizeOf t, 1)

theorem pass1_planNodesList (l : EList) : ∀ (fuel : Nat) (R : Registry)
    (acc : Option Nat), sdepthList l ≤ fuel →
    (∀ x ∈ allIdsList l, alookup R x = none) → (allIdsList l).Nodup →
    wfSubListB l = true →
    pass1 (fun reg2 j2 => fromJsonFuel fuel reg2 j2) R acc (planNodesList l) =
      .ok (R ++ p1eList l, lastId l acc) := by
  cases l with
  | nil =>
    intro fuel R acc _ _ _ _
    show (Except.ok (R, acc) : Except PErr (Registry × Option Nat)) = _
    simp [p1eList, lastId]
  | cons d rest =>
    intro fuel R acc hfuel hR hnd hwf
    obtain ⟨hnd1, hnd2, hdisj⟩ := allIdsList_parts hnd
    have hwf2 : wfSubB d = true ∧ wfSubListB rest = true := by
      simp only [wfSubListB, Bool.and_eq_true] at hwf
      exact hwf
    rw [show planNodesList (EList.cons d rest) =
        planNodes d ++ planNodesList rest from rfl,
      pass1_append, pass1_planNodes d fuel R acc
        (le_trans (le_max_left _ _) hfuel)
        (fun x hx => hR x (by simp [allIdsList, hx])) hnd1 hwf2.1]
    have hbind : ∀ (l2 : List Json) (x : Registry × Option Nat),
        ((Except.ok x : Except PErr (Registry × Option Nat)) >>= fun r =>
          pass1 (fun reg2 j2 => fromJsonFuel fuel reg2 j2) r.1 r.2 l2) =
          pass1 (fun reg2 j2 => fromJsonFuel fuel reg2 j2) x.1 x.2 l2 :=
      fun l2 x => rfl
    rw [hbind]
    rw [pass1_planNodesList rest fuel (R ++ p1e d) (some (idOf d))
      (le_trans (le_max_right _ _) hfuel)
      (by
        intro x hx
        rw [alookup_eq_none_iff, List.map_append, keys_p1e]
        intro hc
        rcases List.mem_append.mp hc with hc | hc
        · exact absurd hc (alookup_eq_none_iff.mp
            (hR x (by simp [allIdsList, hx])))
        · exact hdisj x hc hx) hnd2 hwf2.2]
    simp [p1eList, lastId, List.append_assoc]
termination_by (sizeOf l, 0)

end

mutual

theorem reconstructs_of_lookup (t : ENode) : ∀ (reg : Registry),
    (∀ p ∈ fin t, alookup reg p.1 = some p.2) →
    reconstructsTo reg (idOf t) t = true := by
  cases t with
  | mk i tag uh sh deps sub =>
    intro reg h
    have hroot : alookup reg i =
        some ⟨tag, uh, sh, idsOf deps, subRootId sub⟩ := by
      have := h (i, ⟨tag, uh, sh, idsOf deps, subRootId sub⟩) (by simp [fin])
      simpa using this
    have hdeps := reconstructsList_of_lookup deps reg
      (fun p hp => h p (by simp [fin]; exact Or.inl hp))
    have hsub := reconstructsSub_of_lookup sub reg
      (fun p hp => h p (by simp [fin]; exact Or.inr (Or.inr hp)))
    simp [reconstructsTo, idOf, hroot, hdeps, hsub]
termination_by sizeOf t

theorem reconstructsList_of_lookup (l : EList) : ∀ (reg : Registry),
    (∀ p ∈ finList l, alookup reg p.1 = some p.2) →
    reconstructsList reg l = true := by
  cases l with
  | nil => intro reg h; rfl
  | cons d rest =>
    intro reg h
    have hd := reconstructs_of_lookup d reg
      (fun p hp => h p (by simp [finList]; exact Or.inl hp))
    have hr := reconstructsList_of_lookup rest reg
      (fun p hp => h p (by simp [finList]; exact Or.inr hp))
    simp [reconstructsList, hd, hr]
termination_by sizeOf l

theorem reconstructsSub_of_lookup (u : ESub) : ∀ (reg : Registry),
    (∀ p ∈ p1eSub u, alookup reg p.1 = some p.2) →
    reconstructsSub reg (subRootId u) u = true := by
  cases u with
  | noSub => intro reg h; rfl
  | withSub s =>
    intro reg h
    exact reconstructs_of_lookup s reg (fun p hp => h p hp)
termination_by sizeOf u

end

/-- C1 counterexample: the applied-rules list is NOT restored by the round
trip.  Serializing a one-node plan carrying applied rule "rule-a" and
deserializing it yields a plan whose rule list is empty: fromJson never
reads the rules attribute back. -/
theorem plan_roundtrip_rules_counterexample :
    instanciateFromJson 1 (planJsonOf tinyTree ["rule-a"]) =
      .ok (fin tinyTree, some 1, ([] : List String)) ∧
    ([] : List String) ≠ ["rule-a"] := by
  exact ⟨rfl, by decide⟩

/-- C1 (amended): for every well-formed plan tree (distinct node ids,
subquery attachments exactly on Subquery nodes) and enough recursion fuel,
deserializing the serialized form succeeds and yields the fully-linked
registry `fin t` rooted at the original root id, and that registry
reconstructs a graph isomorphic to the original: same type tags, same
dependency structure in order, same subquery nesting.  The applied-rules
list of the deserialized plan is always empty, not the serialized one. -/
theorem plan_roundtrip_amended (t : ENode) (rules : List String) (fuel : Nat)
    (hnd : (allIds t).Nodup) (hwf : wfSubB t = true)
    (hfuel : sdepth t < fuel) :
    instanciateFromJson fuel (planJsonOf t rules) =
      .ok (fin t, some (idOf t), ([] : List String)) ∧
    reconstructsTo (fin t) (idOf t) t = true := by
  constructor
  · have h := fromJson_plan t fuel [] (planJsonOf t rules)
      (by simp [planJsonOf, jget, alookup]) hfuel (fun x _ => rfl) hnd hwf
    rw [instanciateFromJson]
    simp only [Bind.bind, Except.bind]
    rw [h]
    rfl
  · apply reconstructs_of_lookup
    intro p hp
    exact alookup_self_of_nodup (by rw [keys_fin]; exact hnd) hp

/-- C1 witness: the round trip evaluated on the concrete subquery-carrying
plan sampleTree with fuel 3. -/
theorem plan_roundtrip_amended_witness :
    (allIds sampleTree).Nodup ∧ wfSubB sampleTree = true ∧
    sdepth sampleTree < 3 ∧
    (instanciateFromJson 3 (planJsonOf sampleTree []) =
      .ok (fin sampleTree, some (idOf sampleTree), ([] : List String)) ∧
    reconstructsTo (fin sampleTree) (idOf sampleTree) sampleTree = true) :=
  ⟨by decide, by decide, by decide,
   plan_roundtrip_amended sampleTree [] 3 (by decide) (by decide)
     (by decide)⟩

end ArangoPlan
